import Mathlib

/-!
Verification of the PRODUCT_RECOMMENDATION_AGENT pipeline.

This file gives a shallow embedding, over `List Char` / `String`, of the
pure data-transforming core of the repository:

* `normalize_price_str` (src/app.py, lines 45-69),
* `_normalize_num_str`  (src/parser.py, lines 32-58),
* the merge step of `save_product` (src/parser.py, lines 248-292),
* `augment_and_save_product` and `pick_keyword_fallback_image` (src/app.py),
* `parse_product` / `parse_for_domain` / `fallback_extract`
  (src/fetcher.py, src/site_parsers.py), over an HTML-document oracle,
* `_is_product_page` and the cache path of `serp_search` (src/serp_search.py).

Modelling conventions:
* Python strings become `String` / `List Char`; `str.strip`, `str.replace`
  and the concrete regular expressions used by the code are implemented
  directly (the regexes involved have disjoint character classes, so the
  deterministic greedy matchers below have exactly the Python semantics).
* Python floats are modelled as exact rationals: every value the code ever
  parses is a decimal numeral, and the code does no arithmetic on them
  besides `min`, so no rounding behaviour is observable at the precision
  the claims are about.
* `None`-able values become `Option`; Python truthiness of a string is
  "is not the empty string".
-/

namespace PRA

/-- Python whitespace characters, as recognised by `str.strip` and the
regex class `\s` (the characters that can actually occur in the inputs
this development reasons about). -/
def pyIsWs (c : Char) : Bool :=
  c = ' ' || c = '\t' || c = '\n' || c = '\r' ||
  c = Char.ofNat 11 || c = Char.ofNat 12 || c = Char.ofNat 160

/-- Digit test for the regex class `\d` (ASCII digits). -/
def isDigitChar (c : Char) : Bool := '0' ≤ c && c ≤ '9'

/-- Character class `[\d,]` used by the price regexes. -/
def isDigitComma (c : Char) : Bool := isDigitChar c || c = ','

/-- `str.strip()` : drop Python whitespace from both ends. -/
def pyStrip (l : List Char) : List Char :=
  ((l.dropWhile pyIsWs).reverse.dropWhile pyIsWs).reverse

/-- One fuel-indexed pass of Python `str.replace(pat, repl)`:
replace every non-overlapping occurrence of `pat`, left to right. -/
def pyReplaceAux (pat repl : List Char) : Nat → List Char → List Char
  | _, [] => []
  | 0, l => l
  | fuel + 1, c :: cs =>
    if pat.isPrefixOf (c :: cs) then
      repl ++ pyReplaceAux pat repl fuel ((c :: cs).drop pat.length)
    else
      c :: pyReplaceAux pat repl fuel cs

/-- Python `s.replace(pat, repl)` for a non-empty pattern. -/
def pyReplace (l pat repl : List Char) : List Char :=
  pyReplaceAux pat repl l.length l

/-- The greedy numeric core `[\d,]+(?:\.\d+)?` : consume a non-empty run of
digits/commas, then an optional `.`‑digits part.  Returns the consumed
token and the remainder; fails when the first character is not in `[\d,]`. -/
def matchNumCore (l : List Char) : Option (List Char × List Char) :=
  let run := l.takeWhile isDigitComma
  let rest := l.dropWhile isDigitComma
  if run.isEmpty then none
  else
    match rest with
    | '.' :: r2 =>
      let ds := r2.takeWhile isDigitChar
      if ds.isEmpty then some (run, rest)
      else some (run ++ '.' :: ds, r2.dropWhile isDigitChar)
    | _ => some (run, rest)

/-- Match attempt, at the current position, of the app.py price pattern
`(₹\s*[\d,]+(?:\.\d+)?)` . -/
def rupeeMatchAt (l : List Char) : Option (List Char × List Char) :=
  match l with
  | '₹' :: t =>
    let ws := t.takeWhile pyIsWs
    match matchNumCore (t.dropWhile pyIsWs) with
    | some (tok, rest) => some ('₹' :: (ws ++ tok), rest)
    | none => none
  | _ => none

/-- Tail of the `Rs` pattern after the optional dot: `\s*[\d,]+(?:\.\d+)?` . -/
def rsCore (c1 c2 : Char) (dot t1 : List Char) :
    Option (List Char × List Char) :=
  let ws := t1.takeWhile pyIsWs
  match matchNumCore (t1.dropWhile pyIsWs) with
  | some (tok, rest) => some (c1 :: c2 :: (dot ++ ws ++ tok), rest)
  | none => none

/-- The optional-dot step `\.?` of the `Rs` pattern (greedy; backtracking
never helps here because `.` is neither whitespace nor `[\d,]`). -/
def rsTail (c1 c2 : Char) : List Char → Option (List Char × List Char)
  | '.' :: r => rsCore c1 c2 ['.'] r
  | t => rsCore c1 c2 [] t

/-- Case-insensitive match attempt of `(Rs\.?\s*[\d,]+(?:\.\d+)?)`
(src/app.py line 59, compiled with `re.IGNORECASE`). -/
def rsMatchAt (l : List Char) : Option (List Char × List Char) :=
  match l with
  | c1 :: c2 :: t =>
    if (c1 = 'R' || c1 = 'r') && (c2 = 's' || c2 = 'S') then rsTail c1 c2 t
    else none
  | _ => none

/-- Match attempt of the bare numeric pattern `([\d][\d,]*(?:\.\d+)?)`
(src/app.py line 63): must start with a digit. -/
def numMatchAt (l : List Char) : Option (List Char × List Char) :=
  match l with
  | c :: _ => if isDigitChar c then matchNumCore l else none
  | [] => none

/-- `re.search` : first (leftmost) match of the given position matcher. -/
def scanFor (f : List Char → Option (List Char × List Char)) :
    List Char → Option (List Char)
  | [] => none
  | c :: cs =>
    match f (c :: cs) with
    | some (m, _) => some m
    | none => scanFor f cs

/-- The qualifier-stripping and trimming prelude of `normalize_price_str`
(src/app.py lines 49-52): strip, remove "Starting at" / "From" /
"As low as", strip again. -/
def cleanL (l : List Char) : List Char :=
  pyStrip (pyReplace (pyReplace (pyReplace (pyStrip l)
    "Starting at".data []) "From".data []) "As low as".data [])

/-- `normalize_price_str` (src/app.py lines 45-69).

Branches, in source order: falsy input → `None`; explicit `₹` amount →
the match with spaces removed; `Rs`/`INR`-style amount → the match with
spaces removed; bare number whose digit count is ≥ 2 → `'₹' +` the match;
otherwise the cleaned text, or `None` when it is empty. -/
def normalize_price_str (raw : Option String) : Option String :=
  match raw with
  | none => none
  | some r =>
    if r.data.isEmpty then none
    else
      let s := cleanL r.data
      match scanFor rupeeMatchAt s with
      | some m => some (String.mk (m.filter (fun c => c ≠ ' ')))
      | none =>
        match scanFor rsMatchAt s with
        | some m => some (String.mk (m.filter (fun c => c ≠ ' ')))
        | none =>
          match scanFor numMatchAt s with
          | some m =>
            if 2 ≤ (m.filter isDigitChar).length then
              some (String.mk ('₹' :: m))
            else if s.isEmpty then none else some (String.mk s)
          | none => if s.isEmpty then none else some (String.mk s)

/-- Fuel-indexed worker for `re.findall(r'₹?\s*([\d,]+(?:\.\d+)?)', s)`
(src/parser.py line 40).  The optional `₹?\s*` prefix lies outside the
capture group, so the captured groups are exactly the maximal `[\d,]` runs
with their optional `.`‑digits suffixes, scanned left to right. -/
def tokensAux : Nat → List Char → List (List Char)
  | _, [] => []
  | 0, _ => []
  | fuel + 1, c :: cs =>
    if isDigitComma c then
      match matchNumCore (c :: cs) with
      | some (tok, rest) => tok :: tokensAux fuel rest
      | none => tokensAux fuel cs
    else tokensAux fuel cs

/-- All captured numeric groups of the parser.py price regex. -/
def tokens (l : List Char) : List (List Char) := tokensAux l.length l

/-- Decimal value of a list of ASCII digits (most significant first). -/
def natOfDigits (ds : List Char) : Nat :=
  ds.foldl (fun acc c => 10 * acc + (c.toNat - '0'.toNat)) 0

/-- Python `float(tok.replace(',', ''))` for a captured group `tok`:
commas are removed; the parse fails exactly when no digit remains (the
group consisted of commas only), which is the `ValueError` escape of
src/parser.py lines 43-51.  Values are modelled as exact rationals. -/
def parseTok (t : List Char) : Option ℚ :=
  let u := t.filter (fun c => c ≠ ',')
  if u.isEmpty then none
  else if u.all (fun c => c ≠ '.') then some (natOfDigits u)
  else
    let ip := u.takeWhile (fun c => c ≠ '.')
    let fp := (u.dropWhile (fun c => c ≠ '.')).tail
    some ((natOfDigits ip : ℚ) + (natOfDigits fp : ℚ) / 10 ^ fp.length)

/-- `[float(n.replace(',', '')) for n in nums]` : `some` of all values, or
`none` as soon as one group fails to parse (Python raises on the first
bad one and the whole list is discarded). -/
def parseAll : List (List Char) → Option (List ℚ)
  | [] => some []
  | t :: ts =>
    match parseTok t, parseAll ts with
    | some v, some vs => some (v :: vs)
    | _, _ => none

/-- `min(vals)` of a (nonempty, in the code) list of values. -/
def minListQ : List ℚ → ℚ
  | [] => 0
  | v :: vs => vs.foldl min v

/-- Digits of `n`, most significant first (own recursion, to keep the
comma-grouping proofs elementary). -/
def natDigitsAux : Nat → Nat → List Char
  | 0, _ => []
  | fuel + 1, n =>
    if n < 10 then [Nat.digitChar (n % 10)]
    else natDigitsAux fuel (n / 10) ++ [Nat.digitChar (n % 10)]

def natDigits (n : Nat) : List Char := natDigitsAux (n + 1) n

/-- Insert a `,` after every three characters, counting from the start of
the (already reversed) digit list: the helper behind `f"{n:,}"`. -/
def commaRevGo : Nat → List Char → List Char
  | _, [] => []
  | 0, c :: cs => ',' :: c :: commaRevGo 2 cs
  | k + 1, c :: cs => c :: commaRevGo k cs

/-- `f"{n:,}"` for a natural number: decimal digits with comma thousands
separators. -/
def commaFmtNat (n : Nat) : List Char :=
  (commaRevGo 3 (natDigits n).reverse).reverse

/-- Fractional decimal digits of `q ∈ [0, 1)`, by repeated multiplication
by 10; `fuel` bounds the expansion (every value reaching this function in
the embedding is a finite decimal, so the bound is never hit). -/
def fracDigitsAux : Nat → ℚ → List Char
  | 0, _ => []
  | fuel + 1, q =>
    if q = 0 then []
    else
      let q10 := q * 10
      Nat.digitChar (⌊q10⌋.toNat % 10) :: fracDigitsAux fuel (q10 - ⌊q10⌋)

/-- `f"{x:,}"` for a Python float `x ≥ 0` (as produced by `repr`): grouped
integer part, then `.`, then the fractional digits (`.0` when none). -/
def commaFmtFloat (q : ℚ) : List Char :=
  let fr := fracDigitsAux 30 (q - ⌊q⌋)
  commaFmtNat ⌊q⌋.toNat ++ '.' :: (if fr.isEmpty then ['0'] else fr)

/-- `f"{smallest:,}"` in src/parser.py line 48: Python takes
`int(min(vals))` when every value is integral (so the integer format) and
the float `min(vals)` otherwise. -/
def pyFormatMin (allInt : Bool) (q : ℚ) : List Char :=
  if allInt then commaFmtNat ⌊q⌋.toNat else commaFmtFloat q

/-- The `re.sub(r'[^\d\.,₹]', '', out)` fallback keeps only digits, dots,
commas and the rupee sign. -/
def isKeepChar (c : Char) : Bool :=
  isDigitChar c || c = '.' || c = ',' || c = '₹'

/-- Fallback tail of `_normalize_num_str` (src/parser.py lines 53-58):
strip every other character, trim, and force a leading `₹` when the
result is non-empty. -/
def numFallback (out : List Char) : List Char :=
  let f := pyStrip (out.filter isKeepChar)
  if f.isEmpty then f
  else if f.headD ' ' = '₹' then f
  else '₹' :: f

/-- The `INR`/`Rs.`/`Rs` rewriting and trimming prelude of
`_normalize_num_str` (src/parser.py lines 36-37). -/
def numPre (l : List Char) : List Char :=
  pyReplace (pyReplace (pyReplace (pyStrip l)
    "INR".data []) "Rs.".data "₹".data) "Rs".data "₹".data

/-- The branch structure of `_normalize_num_str` on the rewritten text:
if the price regex captures at least one group and every group parses as
a number, return `'₹' +` the comma-formatted minimum; otherwise fall back
to stripping all characters but `[\d.,₹]` and forcing a `₹` prefix. -/
def numBody (out : List Char) : List Char :=
  if (tokens out).isEmpty then numFallback out
  else
    match parseAll (tokens out) with
    | some vals =>
      '₹' :: pyFormatMin (vals.all (fun v => v.den == 1)) (minListQ vals)
    | none => numFallback out

/-- `_normalize_num_str` (src/parser.py lines 32-58).

Empty input is returned unchanged; otherwise the input is trimmed and the
`INR`/`Rs` spellings rewritten to `₹` (`numPre`), and the token branch
logic (`numBody`) is applied. -/
def _normalize_num_str (s : String) : String :=
  if s.data.isEmpty then s else String.mk (numBody (numPre s.data))

/-! ## Product records, the save-time merge and the augmentation pass -/

/-- Python truthiness of an optional string: `None` and `""` are falsy. -/
def pyTruthy : Option String → Bool
  | none => false
  | some s => !s.data.isEmpty

/-- `a or b` on optional strings. -/
def pyOrOpt (a b : Option String) : Option String :=
  if pyTruthy a then a else b

/-- `x or "d"` for an optional string and a default. -/
def pyOrStr (a : Option String) (d : String) : String :=
  if pyTruthy a then a.getD d else d

/-- The product JSON record, with the keys the pipeline reads and writes.
`offers = some p` models a present `"offers"` dict whose `"price"` entry
is `p` (`none` inside meaning the key is absent or `null`). -/
structure ProductRecord where
  name : Option String := none
  title : Option String := none
  description : Option String := none
  offers : Option (Option String) := none
  price : Option String := none
  images : List String := []
  reviews : List String := []
  source_url : Option String := none
deriving Repr, DecidableEq

/-- A record with no keys: Python's falsy `{}`. -/
def emptyRecord : ProductRecord := {}

/-- `if not data:` — dict truthiness, modelled as "some key is set". -/
def recNonempty (d : ProductRecord) : Bool :=
  d.name.isSome || d.title.isSome || d.description.isSome ||
  d.offers.isSome || d.price.isSome || !d.images.isEmpty ||
  !d.reviews.isEmpty || d.source_url.isSome

/-- The merge step of `save_product` (src/parser.py lines 262-279): the
live re-scout result `meta = {"price": …, "image": …}` is merged into the
extracted record.  A truthy re-scout price is written to both
`offers.price` and the top-level `price`; a truthy re-scout image is
prepended to `images` unless already present. -/
def save_product_merge (data : ProductRecord)
    (metaPrice metaImage : Option String) : ProductRecord :=
  let d1 :=
    if pyTruthy metaPrice then
      { data with offers := some metaPrice, price := metaPrice }
    else data
  if pyTruthy metaImage then
    let img := metaImage.getD ""
    let imgs := if img ∈ d1.images then d1.images else img :: d1.images
    { d1 with images := imgs }
  else d1

/-- Substring test (`pat in s` for Python strings). -/
def listContainsSub (pat l : List Char) : Bool :=
  match l with
  | [] => pat.isPrefixOf ([] : List Char)
  | _ :: cs => pat.isPrefixOf l || listContainsSub pat cs

def containsSub (s pat : String) : Bool := listContainsSub pat.data s.data

/-- The three placeholder image URLs of src/app.py lines 29-33. -/
def FALLBACK_IPHONE : String :=
  "https://upload.wikimedia.org/wikipedia/commons/3/31/IPhone_14_Pro_Black.jpg"

def FALLBACK_HEADPHONES : String :=
  "https://upload.wikimedia.org/wikipedia/commons/4/4e/Headphones.jpg"

def FALLBACK_DEFAULT : String :=
  "https://upload.wikimedia.org/wikipedia/commons/d/dd/No_image_available.svg"

/-- `pick_keyword_fallback_image` (src/app.py lines 71-77). -/
def pick_keyword_fallback_image (title : String) : String :=
  let t := String.mk (title.data.map Char.toLower)
  if containsSub t "iphone" || containsSub t "apple" then FALLBACK_IPHONE
  else if containsSub t "headphone" || containsSub t "earbud" then
    FALLBACK_HEADPHONES
  else FALLBACK_DEFAULT

/-- The price the augmentation step starts from (src/app.py lines 92-96):
`data.get("offers", {}).get("price") or data.get("price")`. -/
def augmentPriceOf (data : ProductRecord) : Option String :=
  pyOrOpt data.offers.join data.price

/-- The pure state transformation of `augment_and_save_product`
(src/app.py lines 79-120); reading and re-writing the JSON file is
elided, as is the unused `url` local.  An empty record is returned as
`{}`; otherwise `images` is replaced by the keyword fallback when empty,
and a truthy price is re-normalized into `offers.price`. -/
def augment_and_save_product (data : ProductRecord) : ProductRecord :=
  if !recNonempty data then emptyRecord
  else
    let title := String.mk (pyStrip (pyOrStr (pyOrOpt data.name data.title) "").data)
    let price := augmentPriceOf data
    let images :=
      if data.images.isEmpty then [pick_keyword_fallback_image title]
      else data.images
    let d1 :=
      if pyTruthy price then
        { data with offers := some (normalize_price_str price) }
      else data
    { d1 with images := images }

/-! ## URL filtering and the search cache (src/serp_search.py) -/

/-- The exclusion markers of `_is_product_page` (lines 62-86). -/
def excludePatterns : List String :=
  ["/s?k=", "/s/", "/search", "/browse", "/category", "/categories",
   "/collections", "/shop", "?s=", "search?", "results", "/filter",
   "/sort", "bestsellers", "new-arrivals", "/all-products", "/specials",
   "/b/", "/gp/bestsellers", "/deals", "?node=", "&node=", "/page"]

/-- The inclusion markers of `_is_product_page` (lines 93-99). -/
def includePatterns : List String :=
  ["/dp/", "/product/", "/p/", "/item/", "/products/"]

/-- `re.search(r'/[Bb]0[A-Z0-9]{7,}', url_lower)` (line 110): a slash,
`B` or `b`, a zero, then at least seven characters from `[A-Z0-9]`
(the url is already lowercased, so in practice only digits qualify). -/
def hasAmazonIdPattern (l : List Char) : Bool :=
  match l with
  | [] => false
  | _ :: cs =>
    (match l with
     | '/' :: c1 :: '0' :: rest =>
       (c1 = 'B' || c1 = 'b') &&
       7 ≤ (rest.takeWhile (fun c => ('A' ≤ c && c ≤ 'Z') || isDigitChar c)).length
     | _ => false) ||
    hasAmazonIdPattern cs

/-- `_is_product_page` (src/serp_search.py lines 53-139). -/
def _is_product_page (url : String) : Bool :=
  let low := String.mk (url.data.map Char.toLower)
  if excludePatterns.any (fun p => containsSub low p) then false
  else if includePatterns.any (fun p => containsSub low p) then true
  else if containsSub low "amazon.in/" || containsSub low "amazon.com/" then
    hasAmazonIdPattern low.data
  else if containsSub low "flipkart.com" || containsSub low "flipkart.in" then
    containsSub low "/p/" || containsSub low "/product/"
  else if containsSub low "myntra.com" then
    containsSub low "/p/" || containsSub low "/product/"
  else if containsSub low "nykaa.com" then
    containsSub low "/p/" || containsSub low "/product/"
  else if containsSub low "snapdeal.com" then
    containsSub low "/product/"
  else false

/-- The cache key of `serp_search` (src/serp_search.py line 150):
`f"q:{query}|sites:{','.join(site_filters) if site_filters else ''}|n:{num}"`. -/
def query_key (query : String) (num : Nat)
    (siteFilters : Option (List String)) : String :=
  "q:" ++ query ++ "|sites:" ++
    (match siteFilters with
     | some fs => if fs.isEmpty then "" else String.intercalate "," fs
     | none => "") ++ "|n:" ++ toString num

/-- Assoc-list lookup in the URL cache. -/
def lookupCache (cache : List (String × List String)) (k : String) :
    Option (List String) :=
  (cache.find? (fun p => p.1 == k)).map (·.2)

/-- Order-preserving dedup of the result URLs (lines 189-194). -/
def dedupUrls : List String → List String
  | [] => []
  | u :: us => u :: (dedupUrls us).filter (fun v => v ≠ u)

/-- Outcome of one `serp_search` call: the returned URLs, the cache as
left on disk, and how many network requests were made. -/
structure SerpOutcome where
  urls : List String
  cache : List (String × List String)
  networkCalls : Nat
deriving Repr, DecidableEq

/-- `serp_search` (src/serp_search.py lines 142-204), with its effects
made explicit: `apiKey` is the `SERPAPI_KEY` environment value,
`organic` the `link`/`url` fields of the provider's organic results
(`none` when a result has neither), and `httpOk` whether the provider
answered with status 200.  A missing key raises; a cache hit returns the
cached list, touching neither the network nor the cache; otherwise the
fetched links are filtered by `_is_product_page`, deduplicated, truncated
to `num` and written back to the cache. -/
def serp_search (apiKey : Option String) (query : String) (num : Nat)
    (siteFilters : Option (List String))
    (cache : List (String × List String))
    (organic : List (Option String)) (httpOk : Bool) :
    Except String SerpOutcome :=
  if !pyTruthy apiKey then
    Except.error "SERPAPI_KEY not found. Add it to your .env file or set the environment variable."
  else
    let key := query_key query num siteFilters
    match lookupCache cache key with
    | some urls => Except.ok ⟨urls, cache, 0⟩
    | none =>
      if !httpOk then Except.error "SerpAPI error"
      else
        let links := (organic.filterMap id).filter _is_product_page
        let uniq := (dedupUrls links).take num
        Except.ok ⟨uniq, (key, uniq) :: cache.filter (fun p => p.1 ≠ key), 1⟩

/-! ## The fetched-page model and the extraction cascade

HTML parsing itself (BeautifulSoup) is an external library; a fetched
page is therefore modelled as an oracle answering exactly the queries the
extractors make: CSS `select_one`/`select`, the description `<meta>` tag,
the `<script>` tags, `<img>` tags, the flattened page text, and the
outcome of `extract_json_ld` (which claims only ever constrain to be
absent).  The extractors themselves are translated from the source. -/

/-- A DOM node, reduced to what the extractors read from it. -/
structure Elem where
  text : String
  attrs : List (String × String)
deriving Repr, DecidableEq

/-- `node.get(key)` . -/
def Elem.attr (e : Elem) (k : String) : Option String :=
  (e.attrs.find? (fun p => p.1 == k)).map (·.2)

/-- JSON values, for the script-embedded review objects. -/
inductive Json where
  | null
  | bool (b : Bool)
  | num (q : ℚ)
  | str (s : String)
  | arr (xs : List Json)
  | obj (fields : List (String × Json))
deriving Repr

/-- A `<script>` tag: its text content (`s.string`, `none` when absent)
and the outcome of `json.loads` on that text (`none` when it raises). -/
structure Script where
  raw : Option String
  parsed : Option Json

/-- A fetched, parsed page. -/
structure Doc where
  selectOne : String → Option Elem
  select : String → List Elem
  findMetaDesc : Option Elem
  scripts : List Script
  imgs : List Elem
  fullText : String
  jsonLdProduct : Option ProductRecord

/-- The completely empty document: every query misses. -/
def emptyDoc : Doc :=
  { selectOne := fun _ => none
    select := fun _ => []
    findMetaDesc := none
    scripts := []
    imgs := []
    fullText := ""
    jsonLdProduct := none }

/-- `_text_or_none` (src/fetcher.py lines 123-127). -/
def textOrNone (e : Option Elem) : Option String := e.map Elem.text

/-- `select_one(s₁) or select_one(s₂) or …` . -/
def firstSelect (doc : Doc) (sels : List String) : Option Elem :=
  sels.findSome? doc.selectOne

/-- `node.get(a₁) or node.get(a₂) or …`, kept when truthy. -/
def attrChain (e : Elem) (keys : List String) : Option String :=
  keys.findSome? (fun k =>
    match e.attr k with
    | some v => if v.data.isEmpty then none else some v
    | none => none)

/-- The per-selector image-candidate loop shared by the site parsers:
take the first selector whose node yields a truthy source attribute that
starts with `http`, is longer than 50 characters and satisfies `extra`. -/
def imageFromSelectors (doc : Doc) (sels : List String)
    (attrKeys : List String) : Option String :=
  sels.findSome? (fun sel =>
    match doc.selectOne sel with
    | none => none
    | some node =>
      match attrChain node attrKeys with
      | some s =>
        if s.startsWith "http" && 50 < s.data.length then some s else none
      | none => none)

/-- The `find_all('img')` fallback loop of the site parsers: first image
whose source is truthy, absolute, long, and matches the site condition. -/
def imageFromImgTags (imgNodes : List Elem) (attrKeys : List String)
    (siteCond : String → Bool) : Option String :=
  imgNodes.findSome? (fun node =>
    match attrChain node attrKeys with
    | some s =>
      if s.startsWith "http" && 50 < s.data.length && siteCond s then some s
      else none
    | none => none)

/-- The price-selector loop of the site parsers: first node, in selector
order, whose text contains a `₹` amount; the match itself is returned. -/
def priceFromSelectors (doc : Doc) (sels : List String) : Option String :=
  sels.findSome? (fun sel =>
    (doc.select sel).findSome? (fun node =>
      (scanFor rupeeMatchAt node.text.data).map String.mk))

/-- Whole-page `re.search(r'(₹\s*[\d,]+(?:\.\d+)?)', text)` fallback. -/
def priceFromText (txt : String) : Option String :=
  (scanFor rupeeMatchAt txt.data).map String.mk

/-- One step of `_collect_reviews_by_selectors`: skip empty and
already-seen snippets, stop at the limit. -/
def addReview (limit : Nat) (acc : List String) (t : String) : List String :=
  if limit ≤ acc.length then acc
  else if t.data.isEmpty then acc
  else if t ∈ acc then acc
  else acc ++ [t]

/-- `_collect_reviews_by_selectors` (src/site_parsers.py lines 12-26). -/
def _collect_reviews_by_selectors (doc : Doc) (sels : List String)
    (limit : Nat) : List String :=
  sels.foldl (fun acc sel =>
    (doc.select sel).foldl (fun a node => addReview limit a node.text) acc) []

/-- `parse_amazon` (src/site_parsers.py lines 29-110). -/
def parse_amazon (doc : Doc) (url : String) : ProductRecord :=
  let title := textOrNone (firstSelect doc ["#productTitle", "h1"])
  let desc := textOrNone (firstSelect doc ["#productDescription", "#feature-bullets"])
  let ogImg : Option String :=
    match doc.selectOne "meta[property=\"og:image\"]" with
    | some og =>
      match og.attr "content" with
      | some c => if c.data.isEmpty then none else some c
      | none => none
    | none => none
  let img := pyOrOpt ogImg
    (pyOrOpt (imageFromSelectors doc
        ["img#landingImage", "img[data-old-hires]", "img[alt*=\"product\"]",
         "img.a-dynamic-image", "#altImages img", "img[data-a-dynamic-image]"]
        ["src", "data-old-hires", "data-a-dynamic-image"])
      (imageFromImgTags doc.imgs ["src", "data-src", "data-a-dynamic-image"]
        (fun s => containsSub (String.mk (s.data.map Char.toLower)) "amazon")))
  let price := pyOrOpt
    (priceFromSelectors doc
      ["#priceblock_ourprice", "#priceblock_dealprice", ".a-price .a-offscreen",
       ".a-price-whole", "span.a-price-whole", "span[data-a-color*=\"price\"]",
       "span.a-price-symbol", "div.a-price",
       ".a-price.a-text-price.a-size-medium.apexPriceToPay"])
    (priceFromText doc.fullText)
  let reviews := _collect_reviews_by_selectors doc
    ["div[data-hook='review'] .review-text-content",
     "#cm-cr-dp-review-list .review-text", ".review-text",
     "span[data-hook='review-body']", "div.a-row.a-spacing-small"] 5
  { name := some (pyOrStr title "")
    description := some (pyOrStr desc "")
    offers := some price
    images := match img with | some s => if s.data.isEmpty then [] else [s] | none => []
    reviews := reviews
    source_url := some url }

/-- `parse_flipkart` (src/site_parsers.py lines 113-192). -/
def parse_flipkart (doc : Doc) (url : String) : ProductRecord :=
  let title := textOrNone (firstSelect doc ["span.B_NuCI", "h1", ".yhB1nd"])
  let desc := textOrNone (firstSelect doc
    ["div._1mXcCf", "div._2mQ9ls", "div.product-description"])
  let ogImg : Option String :=
    match doc.selectOne "meta[property=\"og:image\"]" with
    | some og =>
      match og.attr "content" with
      | some c => if c.data.isEmpty then none else some c
      | none => none
    | none => none
  let lowHas := fun (s pat : String) =>
    containsSub (String.mk (s.data.map Char.toLower)) pat
  let img := pyOrOpt ogImg
    (pyOrOpt (imageFromSelectors doc
        ["img._2r_T1I", "img[alt*=\"product\"]", "img[data-src]",
         ".fHxXCd img", "img.EKtt6"] ["src", "data-src"])
      (imageFromImgTags doc.imgs ["src", "data-src"]
        (fun s => lowHas s "flipkart" || lowHas s "cloudinary")))
  let price := pyOrOpt
    (priceFromSelectors doc
      ["div._30jeq3._16Jk6d", "div._1vC4OE", "span._16Jk6d", ".price",
       "span._2Tpremove", "div.Nx9bqj", "div._25b27d"])
    (priceFromText doc.fullText)
  let reviews := _collect_reviews_by_selectors doc
    ["div._16PBlm", "div._1lRcqv", "div._2-N8zT", "div._3n65Vw",
     "span._2MQATc", "p._39M2dY"] 5
  { name := some (pyOrStr title "")
    description := some (pyOrStr desc "")
    offers := some price
    images := match img with | some s => if s.data.isEmpty then [] else [s] | none => []
    reviews := reviews
    source_url := some url }

/-- `parse_nykaa` (src/site_parsers.py lines 195-272). -/
def parse_nykaa (doc : Doc) (url : String) : ProductRecord :=
  let title := textOrNone (firstSelect doc ["h1", ".css-1x7n0ad"])
  let desc := textOrNone (firstSelect doc
    [".css-1r4v2tw", ".product-description", "[data-testid=\"productDescription\"]"])
  let ogImg : Option String :=
    match doc.selectOne "meta[property=\"og:image\"]" with
    | some og =>
      match og.attr "content" with
      | some c => if c.data.isEmpty then none else some c
      | none => none
    | none => none
  let lowHas := fun (s pat : String) =>
    containsSub (String.mk (s.data.map Char.toLower)) pat
  let img := pyOrOpt ogImg
    (pyOrOpt (imageFromSelectors doc
        ["img[alt*=\"product\"]", "img[data-src]", ".slick-active img",
         "img.slick-slide", "img[src*=\"images.nykaa\"]"] ["src", "data-src"])
      (imageFromImgTags doc.imgs ["src", "data-src"]
        (fun s => lowHas s "nykaa" || lowHas s "images")))
  let price := pyOrOpt
    (priceFromSelectors doc
      [".css-11m7h9r", ".css-1jczs19", ".price",
       "span[data-testid=\"priceTagAmount\"]", "span[data-testid=\"productPrice\"]",
       ".price-tag", "span.css-15r0p3f"])
    (priceFromText doc.fullText)
  let reviews := _collect_reviews_by_selectors doc
    [".css-1g7m0tk .css-1r0v9b1", ".css-1t8l7ad", ".review",
     "span[data-testid=\"rating\"]", "p[data-testid=\"reviewText\"]"] 5
  { name := some (pyOrStr title "")
    description := some (pyOrStr desc "")
    offers := some price
    images := match img with | some s => if s.data.isEmpty then [] else [s] | none => []
    reviews := reviews
    source_url := some url }

/-- `parse_for_domain` (src/site_parsers.py lines 275-284): dispatch on
the lowercased domain; unknown domains get the empty dict, modelled as
`none`. -/
def parse_for_domain (domain : String) (doc : Doc) (url : String) :
    Option ProductRecord :=
  let d := String.mk (domain.data.map Char.toLower)
  if containsSub d "amazon" then some (parse_amazon doc url)
  else if containsSub d "flipkart" then some (parse_flipkart doc url)
  else if containsSub d "nykaa" then some (parse_nykaa doc url)
  else none

/-- Match attempt of `(₹|Rs\.?|INR)\s*[\d,]+(?:\.\d+)?`
(src/fetcher.py line 164; case sensitive, `m.group(0)` is the whole
match).  The alternatives start with distinct characters, so trying the
longest spelling first is exactly the regex semantics. -/
def fbCurrencyAt (l : List Char) : Option (List Char × List Char) :=
  let pre : Option (List Char × List Char) :=
    match l with
    | '₹' :: t => some (['₹'], t)
    | 'R' :: 's' :: '.' :: t => some (['R', 's', '.'], t)
    | 'R' :: 's' :: t => some (['R', 's'], t)
    | 'I' :: 'N' :: 'R' :: t => some (['I', 'N', 'R'], t)
    | _ => none
  match pre with
  | none => none
  | some (p, t) =>
    let ws := t.takeWhile pyIsWs
    match matchNumCore (t.dropWhile pyIsWs) with
    | some (tok, rest) => some (p ++ ws ++ tok, rest)
    | none => none

/-- Match attempt of the last-resort `₹\s*[\d,]+` (src/fetcher.py
line 167, no decimal part). -/
def fbRupeeNoFracAt (l : List Char) : Option (List Char × List Char) :=
  match l with
  | '₹' :: t =>
    let ws := t.takeWhile pyIsWs
    let t1 := t.dropWhile pyIsWs
    let run := t1.takeWhile isDigitComma
    if run.isEmpty then none
    else some ('₹' :: (ws ++ run), t1.dropWhile isDigitComma)
  | _ => none

def jsonLookup (fs : List (String × Json)) (k : String) : Option Json :=
  (fs.find? (fun p => p.1 == k)).map (·.2)

/-- Python truthiness of a JSON value. -/
def pyTruthyJson : Json → Bool
  | Json.null => false
  | Json.bool b => b
  | Json.num q => q != 0
  | Json.str s => !s.data.isEmpty
  | Json.arr xs => !xs.isEmpty
  | Json.obj fs => !fs.isEmpty

/-- `r.get("reviewBody") or r.get("description") or r.get("name")` for a
review object: the first truthy field, as text (the pipeline only ever
sees string-valued review fields; a truthy non-string is modelled as
absent). -/
def reviewFieldChain (fs : List (String × Json)) : Option String :=
  ["reviewBody", "description", "name"].findSome? (fun k =>
    match jsonLookup fs k with
    | some v =>
      if pyTruthyJson v then
        match v with
        | Json.str s => some s
        | _ => none
      else none
    | none => none)

/-- The review snippets one `<script>` tag contributes in
`fallback_extract` (src/fetcher.py lines 175-193): scripts whose text
mentions `reviewBody` or `"review"` are JSON-parsed, and a top-level
`review` entry is read as a list (first 5 objects) or a single object;
a failed parse contributes nothing. -/
def scriptReviewItems (sc : Script) : List (Option String) :=
  match sc.raw with
  | none => []
  | some raw =>
    if raw.data.isEmpty then []
    else if containsSub raw "reviewBody" || containsSub raw "\"review\"" then
      match sc.parsed with
      | some (Json.obj fs) =>
        match jsonLookup fs "review" with
        | some (Json.arr rs) =>
          (rs.take 5).filterMap (fun r =>
            match r with
            | Json.obj rf => some (reviewFieldChain rf)
            | _ => none)
        | some (Json.obj rf) => [reviewFieldChain rf]
        | _ => []
      | _ => []
    else []

/-- The `filtered` loop of `fallback_extract` (src/fetcher.py
lines 207-218): drop falsy and repeated snippets, keep at most five. -/
def dedupReviews (rs : List (Option String)) : List String :=
  rs.foldl (fun acc r =>
    if 5 ≤ acc.length then acc
    else
      match r with
      | none => acc
      | some t => if t.data.isEmpty then acc else if t ∈ acc then acc else acc ++ [t]) []

/-- `fallback_extract` (src/fetcher.py lines 130-225): the generic,
domain-agnostic extractor.  It is a total function — every absent
selector simply leaves the field empty — and its `name` defaults to
`"Unknown"`. -/
def fallback_extract (doc : Doc) : ProductRecord :=
  let title := textOrNone (doc.selectOne "#productTitle, h1, .prd-title, .pdp-title")
  let metaContent : Option String :=
    match doc.findMetaDesc with
    | some e =>
      match e.attr "content" with
      | some c => if c.data.isEmpty then none else some c
      | none => none
    | none => none
  let desc :=
    if pyTruthy metaContent then metaContent
    else pyOrOpt
      (textOrNone (doc.selectOne "#productDescription, #feature-bullets, .product-desc, .description"))
      none
  let priceSel :=
    ["#priceblock_ourprice", "#priceblock_dealprice", ".priceBlockBuyingPriceString",
     ".pdp-price", ".selling-price, ._30jeq3._16Jk6d", ".a-price-whole",
     ".price", ".final-price"].findSome? (fun sel =>
      match doc.selectOne sel with
      | some node => if node.text.data.isEmpty then none else some node.text
      | none => none)
  let price :=
    if pyTruthy priceSel then priceSel
    else pyOrOpt ((scanFor fbCurrencyAt doc.fullText.data).map String.mk)
      ((scanFor fbRupeeNoFracAt doc.fullText.data).map String.mk)
  let scriptItems := doc.scripts.flatMap scriptReviewItems
  let selItems :=
    [".review-text", ".a-size-base.review-text.review-text-content, .review-text-content",
     ".qwjRop ._3l3x", "._16PBlm", ".col._2wzgFH", ".t-ZTKy", "._2-N8zT",
     "._1YokD2 ._1AtVbE"].foldl (fun acc sel =>
      acc ++ ((doc.select sel).take 5).filterMap (fun n =>
        if n.text.data.isEmpty then none else some (some n.text))) []
  { name := some (pyOrStr title "Unknown")
    description := some (pyOrStr desc "")
    offers := some price
    reviews := dedupReviews (scriptItems ++ selItems)
    images := []
    source_url := none }

/-- `urlparse(url).netloc` for absolute URLs: the authority component
between `//` and the next `/`, `?` or `#`. -/
def netlocAux : List Char → List Char
  | [] => []
  | '/' :: '/' :: rest =>
    rest.takeWhile (fun c => c ≠ '/' && c ≠ '?' && c ≠ '#')
  | _ :: cs => netlocAux cs

def netloc (url : String) : String := String.mk (netlocAux url.data)

/-- The pure tail of `parse_product` (src/fetcher.py lines 228-259),
after the page has been fetched and parsed: use the structured-data
Product when present; otherwise dispatch by domain and accept the
site-specific record only when it carries a `source_url`; otherwise run
the generic fallback.  The chosen record is stamped with the URL. -/
def parse_product (doc : Doc) (url : String) : ProductRecord :=
  let data :=
    match doc.jsonLdProduct with
    | some d => d
    | none =>
      match parse_for_domain (netloc url) doc url with
      | some sp => if pyTruthy sp.source_url then sp else fallback_extract doc
      | none => fallback_extract doc
  { data with source_url := some url }

/-- Canonical-price shape claimed by the spec: `₹` followed by (only)
digits and commas. -/
def matchesCanonicalPrice (s : String) : Bool :=
  match s.data with
  | '₹' :: rest => !rest.isEmpty && rest.all isDigitComma
  | _ => false

/-! ## Theorems -/

/-- C8: the product-page URL filter accepts the Amazon `/dp/` URL and the
Flipkart `/product/` URL and rejects the Amazon search URL. -/
theorem c8_url_filter_scenario :
    _is_product_page "https://www.amazon.in/foo/dp/B001XYZ" = true ∧
    _is_product_page "https://www.amazon.in/s?k=foo" = false ∧
    _is_product_page "https://www.flipkart.com/product/p/itm123" = true := by
  refine ⟨?_, ?_, ?_⟩ <;> rfl

/-- C9: when the composite cache key (query text, filter set, count) is
present in the cache, `serp_search` returns the cached URL list, makes no
network call (provided the API key is configured, which the function
checks before even consulting the cache), and leaves the cache unchanged. -/
theorem c9_cache_hit_returns_cached (apiKey : Option String) (query : String)
    (num : Nat) (filters : Option (List String))
    (cache : List (String × List String)) (organic : List (Option String))
    (httpOk : Bool) (urls : List String)
    (hkey : pyTruthy apiKey = true)
    (hhit : lookupCache cache (query_key query num filters) = some urls) :
    serp_search apiKey query num filters cache organic httpOk =
      Except.ok ⟨urls, cache, 0⟩ := by
  unfold serp_search
  simp only [hkey, Bool.not_true, Bool.false_eq_true, if_false, hhit]

theorem c9_cache_hit_returns_cached_witness :
    serp_search (some "key") "phone" 5 (some ["amazon.in"])
      [("q:phone|sites:amazon.in|n:5", ["https://www.amazon.in/x/dp/B0AAAAAAA"])]
      [] true =
      Except.ok ⟨["https://www.amazon.in/x/dp/B0AAAAAAA"],
        [("q:phone|sites:amazon.in|n:5", ["https://www.amazon.in/x/dp/B0AAAAAAA"])], 0⟩ :=
  c9_cache_hit_returns_cached _ _ _ _ _ _ _ _ (by rfl) (by rfl)

/-- A concrete extracted record that already carries an `offers.price`
and a primary image, for exercising the save-time merge. -/
def mergeDemoRecord : ProductRecord :=
  { name := some "Extracted product"
    offers := some (some "₹1,111")
    images := ["https://cdn.example.com/extracted.jpg"] }

/-- C3 counterexample: the save step's merge is *not* restricted to
missing fields.  On a record that already has `offers.price` and a
primary image, a truthy re-scout price replaces `offers.price`, and the
re-scout image becomes the new first image. -/
theorem c3_counterexample :
    (save_product_merge mergeDemoRecord (some "₹2,222")
        (some "https://cdn.example.com/scout.jpg")).offers ≠
      mergeDemoRecord.offers ∧
    (save_product_merge mergeDemoRecord (some "₹2,222")
        (some "https://cdn.example.com/scout.jpg")).images.head? ≠
      mergeDemoRecord.images.head? := by
  refine ⟨?_, ?_⟩ <;> decide

/-- C3 amended: the live re-scout pass *overwrites*: a truthy re-scout
price always replaces `offers.price` (and top-level `price`), and a
truthy re-scout image not already listed is prepended as the new primary
image; only name/description (and absent re-scout results) are left
unchanged. -/
theorem c3_rescout_merge_overwrites (data : ProductRecord)
    (p i : String)
    (hp : p.data.isEmpty = false) (hi : i.data.isEmpty = false)
    (hnotin : i ∉ data.images) :
    (save_product_merge data (some p) (some i)).offers = some (some p) ∧
    (save_product_merge data (some p) (some i)).price = some p ∧
    (save_product_merge data (some p) (some i)).images = i :: data.images ∧
    (save_product_merge data (some p) (some i)).name = data.name ∧
    (save_product_merge data (some p) (some i)).description = data.description := by
  simp [save_product_merge, pyTruthy, hp, hi, hnotin]

theorem c3_rescout_merge_overwrites_witness :
    (save_product_merge
      { offers := some (some "₹10"), images := ["https://x/a.jpg"] }
      (some "₹20") (some "https://x/b.jpg")).offers = some (some "₹20") ∧
    (save_product_merge
      { offers := some (some "₹10"), images := ["https://x/a.jpg"] }
      (some "₹20") (some "https://x/b.jpg")).images =
      ["https://x/b.jpg", "https://x/a.jpg"] := by
  have h := c3_rescout_merge_overwrites
    { offers := some (some "₹10"), images := ["https://x/a.jpg"] }
    "₹20" "https://x/b.jpg" (by rfl) (by rfl) (by decide)
  exact ⟨h.1, h.2.2.1⟩

/-- Is the first bare numeric match (if any) shorter than two digits?
This is the reject condition of src/app.py lines 63-68 when no currency
marker matched. -/
def firstNumMatchSmall (l : List Char) : Bool :=
  ((scanFor numMatchAt l).map
    (fun m => decide ((m.filter isDigitChar).length < 2))).getD true

theorem normalize_price_str_some_eq (p : String) :
    normalize_price_str (some p) =
      (if p.data.isEmpty then none
       else
         match scanFor rupeeMatchAt (cleanL p.data) with
         | some m => some (String.mk (m.filter (fun c => c ≠ ' ')))
         | none =>
           match scanFor rsMatchAt (cleanL p.data) with
           | some m => some (String.mk (m.filter (fun c => c ≠ ' ')))
           | none =>
             match scanFor numMatchAt (cleanL p.data) with
             | some m =>
               if 2 ≤ (m.filter isDigitChar).length then
                 some (String.mk ('₹' :: m))
               else if (cleanL p.data).isEmpty then none
               else some (String.mk (cleanL p.data))
             | none =>
               if (cleanL p.data).isEmpty then none
               else some (String.mk (cleanL p.data))) := rfl

theorem normalize_rupee_branch (p : String) (m : List Char)
    (hpe : p.data.isEmpty = false)
    (hm : scanFor rupeeMatchAt (cleanL p.data) = some m) :
    normalize_price_str (some p) =
      some (String.mk (m.filter (fun c => c ≠ ' '))) := by
  rw [normalize_price_str_some_eq, if_neg (by simp [hpe]), hm]

theorem normalize_rs_branch (p : String) (m : List Char)
    (hpe : p.data.isEmpty = false)
    (h1 : scanFor rupeeMatchAt (cleanL p.data) = none)
    (hm : scanFor rsMatchAt (cleanL p.data) = some m) :
    normalize_price_str (some p) =
      some (String.mk (m.filter (fun c => c ≠ ' '))) := by
  rw [normalize_price_str_some_eq, if_neg (by simp [hpe]), h1, hm]

theorem normalize_num_branch (p : String) (m : List Char)
    (hpe : p.data.isEmpty = false)
    (h1 : scanFor rupeeMatchAt (cleanL p.data) = none)
    (h2 : scanFor rsMatchAt (cleanL p.data) = none)
    (hm : scanFor numMatchAt (cleanL p.data) = some m)
    (hd : 2 ≤ (m.filter isDigitChar).length) :
    normalize_price_str (some p) = some (String.mk ('₹' :: m)) := by
  rw [normalize_price_str_some_eq, if_neg (by simp [hpe]), h1, h2, hm]
  show (if 2 ≤ (m.filter isDigitChar).length then some (String.mk ('₹' :: m))
        else if (cleanL p.data).isEmpty then none
        else some (String.mk (cleanL p.data))) = some (String.mk ('₹' :: m))
  rw [if_pos hd]

theorem normalize_verbatim_branch (p : String)
    (hpe : p.data.isEmpty = false)
    (h1 : scanFor rupeeMatchAt (cleanL p.data) = none)
    (h2 : scanFor rsMatchAt (cleanL p.data) = none)
    (h3 : firstNumMatchSmall (cleanL p.data) = true)
    (h4 : (cleanL p.data).isEmpty = false) :
    normalize_price_str (some p) = some (String.mk (cleanL p.data)) := by
  rw [normalize_price_str_some_eq, if_neg (by simp [hpe]), h1, h2]
  unfold firstNumMatchSmall at h3
  cases hn : scanFor numMatchAt (cleanL p.data) with
  | none =>
    show (if (cleanL p.data).isEmpty then none
          else some (String.mk (cleanL p.data))) = some (String.mk (cleanL p.data))
    rw [if_neg (by simp [h4])]
  | some m =>
    rw [hn] at h3
    simp at h3
    show (if 2 ≤ (m.filter isDigitChar).length then some (String.mk ('₹' :: m))
          else if (cleanL p.data).isEmpty then none
          else some (String.mk (cleanL p.data))) = some (String.mk (cleanL p.data))
    rw [if_neg (by omega), if_neg (by simp [h4])]

theorem rupeeMatchAt_head (l m rest : List Char)
    (h : rupeeMatchAt l = some (m, rest)) : ∃ r, m = '₹' :: r := by
  unfold rupeeMatchAt at h
  split at h
  · split at h
    · simp only [Option.some.injEq, Prod.mk.injEq] at h
      exact ⟨_, h.1.symm⟩
    · exact absurd h (by simp)
  · exact absurd h (by simp)

theorem scanFor_rupee_head (l m : List Char)
    (h : scanFor rupeeMatchAt l = some m) : ∃ r, m = '₹' :: r := by
  induction l with
  | nil => simp [scanFor] at h
  | cons c cs ih =>
    unfold scanFor at h
    cases hf : rupeeMatchAt (c :: cs) with
    | some pr =>
      rw [hf] at h
      simp only [Option.some.injEq] at h
      exact h ▸ rupeeMatchAt_head _ _ _ hf
    | none =>
      rw [hf] at h
      exact ih h

/-- A record with images and a price that the augmentation step cannot
bring into canonical form. -/
def augmentDemoRecord : ProductRecord :=
  { name := some "Widget", price := some "contact seller", images := [] }

/-- C4 counterexample: augmentation always leaves ≥ 1 image, but it does
*not* guarantee the canonical `₹`‑digits/commas price format: a record
whose price text has no numeric content keeps that text verbatim in
`offers.price`. -/
theorem c4_counterexample :
    1 ≤ (augment_and_save_product augmentDemoRecord).images.length ∧
    (augment_and_save_product augmentDemoRecord).offers =
      some (some "contact seller") ∧
    matchesCanonicalPrice "contact seller" = false := by
  refine ⟨by decide, by decide, by decide⟩

/-- C4 amended: for every non-empty record, augmentation leaves an
`images` list of length ≥ 1 (via the keyword placeholder when it was
empty), and when a truthy price exists in the record, `offers.price`
becomes `normalize_price_str` of it — which carries the `₹` prefix
whenever the price text contains an explicit rupee amount, but may be
the cleaned original text (not canonical) otherwise. -/
theorem c4_augment_postcondition (data : ProductRecord)
    (h : recNonempty data = true) :
    1 ≤ (augment_and_save_product data).images.length ∧
    (∀ p : String, augmentPriceOf data = some p → p.data.isEmpty = false →
      (augment_and_save_product data).offers =
        some (normalize_price_str (some p)) ∧
      (∀ m, scanFor rupeeMatchAt (cleanL p.data) = some m →
        ∃ b : String, normalize_price_str (some p) = some b ∧
          b.data.head? = some '₹')) := by
  unfold augment_and_save_product
  rw [h]
  simp only [Bool.not_true, Bool.false_eq_true, if_false]
  constructor
  · by_cases hi : data.images.isEmpty
    · simp [hi]
    · simp only [hi, Bool.false_eq_true, if_false]
      cases hl : data.images with
      | nil => rw [hl] at hi; exact absurd rfl hi
      | cons a as => simp
  · intro p hp hpe
    have hpt : pyTruthy (augmentPriceOf data) = true := by
      rw [hp]; simp [pyTruthy, hpe]
    rw [hp] at hpt ⊢
    simp only [hpt, if_true]
    refine ⟨by trivial, ?_⟩
    intro m hm
    obtain ⟨r, hr⟩ := scanFor_rupee_head _ _ hm
    refine ⟨String.mk (m.filter (fun c => c ≠ ' ')), ?_, ?_⟩
    · exact normalize_rupee_branch p m hpe hm
    · subst hr
      simp

theorem c4_augment_postcondition_witness :
    1 ≤ (augment_and_save_product
      { name := some "Apple iPhone 14", offers := some (some "₹ 79,900"),
        images := [] }).images.length ∧
    (augment_and_save_product
      { name := some "Apple iPhone 14", offers := some (some "₹ 79,900"),
        images := [] }).offers = some (some "₹79,900") := by
  have h := c4_augment_postcondition
    { name := some "Apple iPhone 14", offers := some (some "₹ 79,900"),
      images := [] } (by decide)
  refine ⟨h.1, ?_⟩
  have h2 := (h.2 "₹ 79,900" (by rfl) (by rfl)).1
  rw [h2]
  decide

theorem foldl_min_mem (v : ℚ) (vs : List ℚ) : vs.foldl min v ∈ v :: vs := by
  induction vs generalizing v with
  | nil => simp
  | cons w ws ih =>
    simp only [List.foldl_cons]
    rcases List.mem_cons.1 (ih (min v w)) with h | h
    · rcases le_total v w with hvw | hvw
      · rw [h, min_eq_left hvw]; exact List.mem_cons_self _ _
      · rw [h, min_eq_right hvw]
        exact List.mem_cons_of_mem _ (List.mem_cons_self _ _)
    · exact List.mem_cons_of_mem _ (List.mem_cons_of_mem _ h)

theorem foldl_min_le (v : ℚ) (vs : List ℚ) :
    ∀ w ∈ v :: vs, vs.foldl min v ≤ w := by
  induction vs generalizing v with
  | nil => intro w hw; simp at hw; simp [hw]
  | cons u us ih =>
    intro w hw
    have hbase : us.foldl min (min v u) ≤ min v u :=
      ih (min v u) _ (List.mem_cons_self _ _)
    simp only [List.foldl_cons]
    rcases List.mem_cons.1 hw with h | h
    · rw [h]; exact le_trans hbase (min_le_left _ _)
    · rcases List.mem_cons.1 h with h2 | h2
      · rw [h2]; exact le_trans hbase (min_le_right _ _)
      · exact ih (min v u) w (List.mem_cons_of_mem _ h2)

theorem minListQ_mem (vs : List ℚ) (h : vs ≠ []) : minListQ vs ∈ vs := by
  cases vs with
  | nil => exact absurd rfl h
  | cons v tl => exact foldl_min_mem v tl

theorem minListQ_le (vs : List ℚ) : ∀ w ∈ vs, minListQ vs ≤ w := by
  cases vs with
  | nil => intro w hw; simp at hw
  | cons v tl => intro w hw; exact foldl_min_le v tl w hw

theorem parseAll_length (ts : List (List Char)) (vs : List ℚ)
    (h : parseAll ts = some vs) : ts.length = vs.length := by
  induction ts generalizing vs with
  | nil =>
    unfold parseAll at h
    simp only [Option.some.injEq] at h
    simp [← h]
  | cons t tl ih =>
    unfold parseAll at h
    cases hp : parseTok t with
    | none => rw [hp] at h; exact absurd h (by simp)
    | some v =>
      rw [hp] at h
      cases hq : parseAll tl with
      | none => rw [hq] at h; exact absurd h (by simp)
      | some ws =>
        rw [hq] at h
        simp only [Option.some.injEq] at h
        subst h
        simp [ih ws hq]

/-- C1 counterexample: the parser-level normalizer does *not* always pick
the minimum of multiple numeric candidates.  `"₹499 , ₹999"` has two
digit-bearing candidates (499 and 999), yet the stray comma captured as a
third candidate aborts the numeric path and the fallback returns
`"₹499,₹999"`, not the minimum `"₹499"`. -/
theorem c1_counterexample :
    2 ≤ ((tokens (numPre ("₹499 , ₹999").data)).filter
      (fun t => t.any isDigitChar)).length ∧
    _normalize_num_str "₹499 , ₹999" = "₹499,₹999" ∧
    ("₹499,₹999" : String) ≠ "₹499" := by
  refine ⟨by decide, by decide, by decide⟩

/-- C1 amended: whenever *every* captured numeric candidate actually
parses as a number (equivalently, none of them is a comma-only capture),
and there are at least two of them, `_normalize_num_str` returns `₹`
followed by the Python-formatted minimum of the candidate values; the
selected value is one of the candidates and is ≤ every candidate.  In
particular `_normalize_num_str "₹499 - ₹999" = "₹499"`. -/
theorem c1_range_selects_minimum (s : String) (vals : List ℚ)
    (hparse : parseAll (tokens (numPre s.data)) = some vals)
    (hlen : 2 ≤ vals.length) :
    _normalize_num_str s =
      String.mk ('₹' :: pyFormatMin (vals.all (fun v => v.den == 1))
        (minListQ vals)) ∧
    minListQ vals ∈ vals ∧ ∀ w ∈ vals, minListQ vals ≤ w := by
  have hvne : vals ≠ [] := by
    intro hv; rw [hv] at hlen; exact absurd hlen (by decide)
  have hse : s.data.isEmpty = false := by
    cases hd : s.data with
    | nil =>
      rw [hd] at hparse
      have : tokens (numPre []) = [] := by decide
      rw [this] at hparse
      unfold parseAll at hparse
      simp only [Option.some.injEq] at hparse
      rw [← hparse] at hlen
      exact absurd hlen (by decide)
    | cons c cs => simp
  have htne : (tokens (numPre s.data)).isEmpty = false := by
    have hl := parseAll_length _ _ hparse
    cases ht : tokens (numPre s.data) with
    | nil => rw [ht] at hl; rw [← hl] at hlen; exact absurd hlen (by decide)
    | cons a as => simp
  refine ⟨?_, minListQ_mem vals hvne, minListQ_le vals⟩
  unfold _normalize_num_str numBody
  rw [hse]
  simp only [Bool.false_eq_true, if_false]
  rw [htne]
  simp only [Bool.false_eq_true, if_false]
  rw [hparse]

theorem c1_range_selects_minimum_witness :
    _normalize_num_str "₹499 - ₹999" = "₹499" := by
  have h := (c1_range_selects_minimum "₹499 - ₹999" [499, 999]
    (by decide) (by decide)).1
  rw [h]
  decide

theorem dropWhile_eq_nil_of_all (p : Char → Bool) (l : List Char)
    (h : l.all p = true) : l.dropWhile p = [] := by
  induction l with
  | nil => rfl
  | cons c cs ih =>
    simp only [List.all_cons, Bool.and_eq_true] at h
    simp [List.dropWhile_cons, h.1, ih h.2]

theorem pyStrip_nil_of_all_ws (l : List Char) (h : l.all pyIsWs = true) :
    pyStrip l = [] := by
  unfold pyStrip
  rw [dropWhile_eq_nil_of_all _ _ h]
  rfl

theorem cleanL_of_all_ws (l : List Char) (h : l.all pyIsWs = true) :
    cleanL l = [] := by
  unfold cleanL
  rw [pyStrip_nil_of_all_ws l h]
  rfl

theorem mem_dropWhile (p : Char → Bool) (l : List Char) :
    ∀ c ∈ l.dropWhile p, c ∈ l := by
  induction l with
  | nil => intro c hc; simp at hc
  | cons a as ih =>
    intro c hc
    rw [List.dropWhile_cons] at hc
    by_cases hp : p a = true
    · rw [if_pos hp] at hc
      exact List.mem_cons_of_mem _ (ih c hc)
    · rw [if_neg hp] at hc
      exact hc

theorem mem_pyStrip (l : List Char) : ∀ c ∈ pyStrip l, c ∈ l := by
  intro c hc
  unfold pyStrip at hc
  rw [List.mem_reverse] at hc
  have h1 := mem_dropWhile pyIsWs _ c hc
  rw [List.mem_reverse] at h1
  exact mem_dropWhile pyIsWs l c h1

theorem mem_pyReplaceAux_empty (pat : List Char) (fuel : Nat) :
    ∀ l : List Char, ∀ c ∈ pyReplaceAux pat [] fuel l, c ∈ l := by
  induction fuel with
  | zero =>
    intro l c hc
    cases l with
    | nil => simp [pyReplaceAux] at hc
    | cons a as => exact hc
  | succ n ih =>
    intro l c hc
    cases l with
    | nil => simp [pyReplaceAux] at hc
    | cons a as =>
      unfold pyReplaceAux at hc
      by_cases hp : pat.isPrefixOf (a :: as) = true
      · rw [if_pos hp] at hc
        simp only [List.nil_append] at hc
        exact List.drop_subset _ _ (ih _ c hc)
      · rw [if_neg hp] at hc
        rcases List.mem_cons.1 hc with h | h
        · rw [h]; exact List.mem_cons_self _ _
        · exact List.mem_cons_of_mem _ (ih _ c h)

theorem mem_cleanL (l : List Char) : ∀ c ∈ cleanL l, c ∈ l := by
  intro c hc
  unfold cleanL pyReplace at hc
  have h1 := mem_pyStrip _ c hc
  have h2 := mem_pyReplaceAux_empty _ _ _ c h1
  have h3 := mem_pyReplaceAux_empty _ _ _ c h2
  have h4 := mem_pyReplaceAux_empty _ _ _ c h3
  exact mem_pyStrip l c h4

theorem takeWhile_eq_nil_of_not (p : Char → Bool) (l : List Char)
    (h : ∀ c ∈ l, p c = false) : l.takeWhile p = [] := by
  cases l with
  | nil => rfl
  | cons a as => simp [List.takeWhile_cons, h a (List.mem_cons_self _ _)]

theorem matchNumCore_none (l : List Char)
    (h : ∀ c ∈ l, isDigitComma c = false) : matchNumCore l = none := by
  unfold matchNumCore
  rw [takeWhile_eq_nil_of_not _ _ h]
  rfl

theorem rupeeMatchAt_none (l : List Char)
    (h : ∀ c ∈ l, isDigitComma c = false) : rupeeMatchAt l = none := by
  unfold rupeeMatchAt
  split
  · rename_i t
    rw [matchNumCore_none]
    intro c hc
    exact h c (List.mem_cons_of_mem _ (mem_dropWhile _ _ c hc))
  · rfl

theorem rsCore_none (c1 c2 : Char) (dot t1 : List Char)
    (h : ∀ c ∈ t1, isDigitComma c = false) : rsCore c1 c2 dot t1 = none := by
  unfold rsCore
  rw [matchNumCore_none _ (fun c hc => h c (mem_dropWhile _ _ c hc))]

theorem rsTail_none (c1 c2 : Char) (t : List Char)
    (h : ∀ c ∈ t, isDigitComma c = false) : rsTail c1 c2 t = none := by
  unfold rsTail
  split
  · rename_i r
    exact rsCore_none _ _ _ _ (fun c hc => h c (List.mem_cons_of_mem _ hc))
  · exact rsCore_none _ _ _ _ h

theorem rsMatchAt_none (l : List Char)
    (h : ∀ c ∈ l, isDigitComma c = false) : rsMatchAt l = none := by
  unfold rsMatchAt
  split
  · rename_i c1 c2 t
    by_cases hrs : ((c1 = 'R' || c1 = 'r') && (c2 = 's' || c2 = 'S')) = true
    · rw [if_pos hrs]
      exact rsTail_none _ _ _ (fun c hc =>
        h c (List.mem_cons_of_mem _ (List.mem_cons_of_mem _ hc)))
    · rw [if_neg hrs]
  · rfl

theorem numMatchAt_none (l : List Char)
    (h : ∀ c ∈ l, isDigitComma c = false) : numMatchAt l = none := by
  unfold numMatchAt
  split
  · rename_i c t
    have hc := h c (List.mem_cons_self _ _)
    have hd : isDigitChar c = false := by
      unfold isDigitComma at hc
      exact (Bool.or_eq_false_iff.1 hc).1
    rw [hd]
    simp
  · rfl

theorem scanFor_none_of (f : List Char → Option (List Char × List Char))
    (hf : ∀ l' : List Char, (∀ c ∈ l', isDigitComma c = false) → f l' = none)
    (l : List Char) (h : ∀ c ∈ l, isDigitComma c = false) :
    scanFor f l = none := by
  induction l with
  | nil => rfl
  | cons a as ih =>
    unfold scanFor
    rw [hf _ h]
    exact ih (fun c hc => h c (List.mem_cons_of_mem _ hc))

/-- C10 counterexample: on content with no numeric content the normalizer
does *not* return the trimmed original verbatim — the qualifier phrases
are stripped first: `"From here"` comes back as `"here"`. -/
theorem c10_counterexample :
    normalize_price_str (some "From here") = some "here" ∧
    ("here" : String) ≠ "From here" := by
  refine ⟨by decide, by decide⟩

/-- C10 amended: empty or blank input yields `None`; input containing
neither digits nor commas yields the *cleaned* text — trimmed and with
the qualifier phrases "Starting at" / "From" / "As low as" removed —
verbatim (or `None` when nothing remains). -/
theorem c10_blank_and_nonnumeric :
    normalize_price_str none = none ∧
    (∀ s : String, s.data.all pyIsWs = true →
      normalize_price_str (some s) = none) ∧
    (∀ s : String, s.data.all (fun c => !isDigitComma c) = true →
      (cleanL s.data).isEmpty = false →
      normalize_price_str (some s) = some (String.mk (cleanL s.data))) := by
  refine ⟨rfl, ?_, ?_⟩
  · intro s hs
    by_cases hse : s.data.isEmpty = true
    · rw [normalize_price_str_some_eq, if_pos hse]
    · have hcl : cleanL s.data = [] := cleanL_of_all_ws _ hs
      rw [normalize_price_str_some_eq, if_neg hse, hcl]
      rfl
  · intro s hall hcl
    have hdc : ∀ c ∈ cleanL s.data, isDigitComma c = false := by
      intro c hc
      have hmem := mem_cleanL s.data c hc
      have := (List.all_eq_true.1 hall) c hmem
      simpa using this
    have hpe : s.data.isEmpty = false := by
      cases hd : s.data with
      | nil =>
        have hznil : cleanL s.data = [] := by rw [hd]; decide
        rw [hznil] at hcl
        simp at hcl
      | cons a as => simp
    have hns : firstNumMatchSmall (cleanL s.data) = true := by
      unfold firstNumMatchSmall
      rw [scanFor_none_of numMatchAt numMatchAt_none _ hdc]
      rfl
    exact normalize_verbatim_branch s hpe
      (scanFor_none_of rupeeMatchAt rupeeMatchAt_none _ hdc)
      (scanFor_none_of rsMatchAt rsMatchAt_none _ hdc)
      hns hcl

theorem c10_blank_and_nonnumeric_witness :
    normalize_price_str (some "   ") = none ∧
    normalize_price_str (some "no price available!") =
      some "no price available!" := by
  refine ⟨c10_blank_and_nonnumeric.2.1 "   " (by decide), ?_⟩
  have h := c10_blank_and_nonnumeric.2.2 "no price available!"
    (by decide) (by decide)
  rw [h]
  decide

/-- C5 counterexample: a single-digit amount is *not* rejected when it is
preceded by an explicit currency symbol: `"₹ 5"` normalizes to `"₹5"` — a
currency-prefixed output that also differs from the original text. -/
theorem c5_counterexample :
    normalize_price_str (some "₹ 5") = some "₹5" ∧
    ("₹5" : String).data.head? = some '₹' ∧
    ("₹5" : String) ≠ "₹ 5" := by
  refine ⟨by decide, by decide, by decide⟩

/-- C5 amended: the ≥ 2-digit noise filter applies only to *bare* numeric
matches.  When the cleaned input has no `₹`-amount match, no `Rs`-amount
match, and its first bare numeric match (if any) has fewer than two
digits, the normalizer returns the cleaned input unchanged and adds no
currency prefix (a `₹` can appear in the output only if it was already in
the input).  Single-digit amounts behind an explicit `₹`/`Rs` marker are,
however, accepted as prices. -/
theorem c5_single_digit_noise_rejection (s : String)
    (h1 : scanFor rupeeMatchAt (cleanL s.data) = none)
    (h2 : scanFor rsMatchAt (cleanL s.data) = none)
    (h3 : firstNumMatchSmall (cleanL s.data) = true)
    (h4 : (cleanL s.data).isEmpty = false) :
    normalize_price_str (some s) = some (String.mk (cleanL s.data)) ∧
    ('₹' ∉ s.data → '₹' ∉ cleanL s.data) := by
  have hpe : s.data.isEmpty = false := by
    cases hd : s.data with
    | nil =>
      have hznil : cleanL s.data = [] := by rw [hd]; decide
      rw [hznil] at h4
      simp at h4
    | cons a as => simp
  exact ⟨normalize_verbatim_branch s hpe h1 h2 h3 h4,
    fun hnot hmem => hnot (mem_cleanL s.data '₹' hmem)⟩

theorem c5_single_digit_noise_rejection_witness :
    normalize_price_str (some "rated 5 stars") = some "rated 5 stars" := by
  have h := (c5_single_digit_noise_rejection "rated 5 stars"
    (by decide) (by decide) (by decide) (by decide)).1
  rw [h]
  decide

theorem digitChar_mod_ten_not_ws (x : Nat) :
    pyIsWs (Nat.digitChar (x % 10)) = false := by
  have h : x % 10 < 10 := Nat.mod_lt _ (by norm_num)
  generalize x % 10 = r at h
  interval_cases r <;> decide

theorem mem_natDigitsAux (fuel n : Nat) :
    ∀ c ∈ natDigitsAux fuel n, ∃ x, c = Nat.digitChar (x % 10) := by
  induction fuel generalizing n with
  | zero => intro c hc; simp [natDigitsAux] at hc
  | succ k ih =>
    intro c hc
    unfold natDigitsAux at hc
    by_cases hn : n < 10
    · rw [if_pos hn] at hc
      rcases List.mem_singleton.1 hc with rfl
      exact ⟨n, rfl⟩
    · rw [if_neg hn] at hc
      rcases List.mem_append.1 hc with h | h
      · exact ih _ c h
      · rcases List.mem_singleton.1 h with rfl
        exact ⟨n, rfl⟩

theorem mem_commaRevGo (l : List Char) :
    ∀ k : Nat, ∀ c ∈ commaRevGo k l, c = ',' ∨ c ∈ l := by
  induction l with
  | nil => intro k c hc; simp [commaRevGo] at hc
  | cons a as ih =>
    intro k c hc
    cases k with
    | zero =>
      unfold commaRevGo at hc
      rcases List.mem_cons.1 hc with h | h
      · exact Or.inl h
      · rcases List.mem_cons.1 h with h2 | h2
        · exact Or.inr (h2 ▸ List.mem_cons_self _ _)
        · rcases ih 2 c h2 with h3 | h3
          · exact Or.inl h3
          · exact Or.inr (List.mem_cons_of_mem _ h3)
    | succ k' =>
      unfold commaRevGo at hc
      rcases List.mem_cons.1 hc with h | h
      · exact Or.inr (h ▸ List.mem_cons_self _ _)
      · rcases ih k' c h with h3 | h3
        · exact Or.inl h3
        · exact Or.inr (List.mem_cons_of_mem _ h3)

theorem not_ws_commaFmtNat (n : Nat) :
    ∀ c ∈ commaFmtNat n, pyIsWs c = false := by
  intro c hc
  unfold commaFmtNat at hc
  rw [List.mem_reverse] at hc
  rcases mem_commaRevGo _ _ c hc with h | h
  · rw [h]; decide
  · rw [List.mem_reverse] at h
    obtain ⟨x, hx⟩ := mem_natDigitsAux (n + 1) n c h
    rw [hx]
    exact digitChar_mod_ten_not_ws x

theorem mem_fracDigitsAux (fuel : Nat) (q : ℚ) :
    ∀ c ∈ fracDigitsAux fuel q, ∃ x, c = Nat.digitChar (x % 10) := by
  induction fuel generalizing q with
  | zero => intro c hc; simp [fracDigitsAux] at hc
  | succ k ih =>
    intro c hc
    unfold fracDigitsAux at hc
    by_cases hq : q = 0
    · rw [if_pos hq] at hc; simp at hc
    · rw [if_neg hq] at hc
      rcases List.mem_cons.1 hc with h | h
      · exact ⟨_, h⟩
      · exact ih _ c h

theorem not_ws_pyFormatMin (b : Bool) (q : ℚ) :
    ∀ c ∈ pyFormatMin b q, pyIsWs c = false := by
  intro c hc
  unfold pyFormatMin at hc
  cases b with
  | true => exact not_ws_commaFmtNat _ c (by simpa using hc)
  | false =>
    simp only [Bool.false_eq_true, if_false] at hc
    unfold commaFmtFloat at hc
    rcases List.mem_append.1 hc with h | h
    · exact not_ws_commaFmtNat _ c h
    · rcases List.mem_cons.1 h with h2 | h2
      · rw [h2]; decide
      · by_cases hf : (fracDigitsAux 30 (q - ⌊q⌋)).isEmpty = true
        · rw [if_pos hf] at h2
          rcases List.mem_singleton.1 h2 with rfl
          decide
        · rw [if_neg hf] at h2
          obtain ⟨x, hx⟩ := mem_fracDigitsAux _ _ c h2
          rw [hx]
          exact digitChar_mod_ten_not_ws x

theorem keep_not_ws (c : Char) (h : isKeepChar c = true) :
    pyIsWs c = false := by
  by_contra hws
  rw [Bool.not_eq_false] at hws
  unfold pyIsWs at hws
  simp only [Bool.or_eq_true, decide_eq_true_eq] at hws
  rcases hws with ((((((hc | hc) | hc) | hc) | hc) | hc) | hc) <;>
    · subst hc; revert h; decide

theorem mem_numFallback_keep (out : List Char) :
    ∀ c ∈ numFallback out, c = '₹' ∨ isKeepChar c = true := by
  intro c hc
  unfold numFallback at hc
  have hmemf : ∀ d ∈ pyStrip (out.filter isKeepChar), isKeepChar d = true :=
    fun d hd => (List.mem_filter.1 (mem_pyStrip _ d hd)).2
  by_cases he : (pyStrip (out.filter isKeepChar)).isEmpty = true
  · rw [if_pos he] at hc
    exact Or.inr (hmemf c hc)
  · rw [if_neg he] at hc
    by_cases hh : (pyStrip (out.filter isKeepChar)).headD ' ' = '₹'
    · rw [if_pos hh] at hc
      exact Or.inr (hmemf c hc)
    · rw [if_neg hh] at hc
      rcases List.mem_cons.1 hc with h | h
      · exact Or.inl h
      · exact Or.inr (hmemf c h)

theorem numFallback_spec (out : List Char) :
    numFallback out = [] ∨
    ((numFallback out).head? = some '₹' ∧
      ∀ c ∈ numFallback out, pyIsWs c = false) := by
  have hws : ∀ c ∈ numFallback out, pyIsWs c = false := by
    intro c hc
    rcases mem_numFallback_keep out c hc with h | h
    · rw [h]; decide
    · exact keep_not_ws c h
  unfold numFallback at hws ⊢
  by_cases he : (pyStrip (out.filter isKeepChar)).isEmpty = true
  · rw [if_pos he] at hws ⊢
    left
    cases hl : pyStrip (out.filter isKeepChar) with
    | nil => rfl
    | cons a as => rw [hl] at he; simp at he
  · rw [if_neg he] at hws ⊢
    right
    by_cases hh : (pyStrip (out.filter isKeepChar)).headD ' ' = '₹'
    · rw [if_pos hh] at hws ⊢
      refine ⟨?_, hws⟩
      cases hl : pyStrip (out.filter isKeepChar) with
      | nil => rw [hl] at he; simp at he
      | cons a as =>
        rw [hl] at hh
        simp only [List.headD_cons] at hh
        rw [hh]
        rfl
    · rw [if_neg hh] at hws ⊢
      exact ⟨rfl, hws⟩

theorem numBody_spec (out : List Char) :
    numBody out = [] ∨
    ((numBody out).head? = some '₹' ∧
      ∀ c ∈ numBody out, pyIsWs c = false) := by
  unfold numBody
  by_cases ht : (tokens out).isEmpty = true
  · rw [if_pos ht]
    exact numFallback_spec out
  · rw [if_neg ht]
    cases hp : parseAll (tokens out) with
    | none => exact numFallback_spec out
    | some vals =>
      right
      refine ⟨rfl, ?_⟩
      intro c hc
      rcases List.mem_cons.1 hc with h | h
      · rw [h]; decide
      · exact not_ws_pyFormatMin _ _ c h

/-- C2 counterexample: the `Rs`-branch of `normalize_price_str` returns a
price string that does *not* start with the rupee symbol. -/
theorem c2_counterexample :
    normalize_price_str (some "Rs. 1,299") = some "Rs.1,299" ∧
    ("Rs.1,299" : String).data.head? ≠ some '₹' := by
  refine ⟨by decide, by decide⟩

/-- C2 amended: the parser-level normalizer `_normalize_num_str` does
satisfy the invariant — every non-empty output starts with `₹` and
contains no whitespace character.  (`normalize_price_str`, by contrast,
returns `Rs`-prefixed matches as-is and non-numeric text verbatim, and
only removes the space character, not other whitespace.) -/
theorem c2_num_normalizer_invariant (s : String) :
    (_normalize_num_str s).data = [] ∨
    ((_normalize_num_str s).data.head? = some '₹' ∧
      ∀ c ∈ (_normalize_num_str s).data, pyIsWs c = false) := by
  unfold _normalize_num_str
  by_cases hse : s.data.isEmpty = true
  · rw [if_pos hse]
    left
    cases hd : s.data with
    | nil => rfl
    | cons a as => rw [hd] at hse; simp at hse
  · rw [if_neg hse]
    exact numBody_spec (numPre s.data)

/-- The domains having a site-specific extractor (site_parsers.py
lines 277-282). -/
def isRecognizedDomain (d : String) : Bool :=
  containsSub (String.mk (d.data.map Char.toLower)) "amazon" ||
  containsSub (String.mk (d.data.map Char.toLower)) "flipkart" ||
  containsSub (String.mk (d.data.map Char.toLower)) "nykaa"

/-- C7: on a fetched page with no structured-data Product and a URL whose
domain is unrecognized, the site dispatch returns the empty result and
`parse_product` returns exactly the Generic Fallback Extractor's record
(stamped with the URL).  `fallback_extract` is a total function — it
returns a record on *every* document, the empty one included — and its
`name` is `"Unknown"` whenever no title resolves. -/
theorem c7_fallback_cascade (doc : Doc) (url : String)
    (hld : doc.jsonLdProduct = none)
    (hdom : isRecognizedDomain (netloc url) = false) :
    parse_for_domain (netloc url) doc url = none ∧
    parse_product doc url =
      { fallback_extract doc with source_url := some url } ∧
    (pyTruthy (textOrNone
        (doc.selectOne "#productTitle, h1, .prd-title, .pdp-title")) = false →
      (fallback_extract doc).name = some "Unknown") := by
  unfold isRecognizedDomain at hdom
  simp only [Bool.or_eq_false_iff] at hdom
  have hpd : parse_for_domain (netloc url) doc url = none := by
    unfold parse_for_domain
    rw [if_neg (by simp [hdom.1.1]), if_neg (by simp [hdom.1.2]),
      if_neg (by simp [hdom.2])]
  refine ⟨hpd, ?_, ?_⟩
  · unfold parse_product
    rw [hld, hpd]
  · intro ht
    show (some (pyOrStr (textOrNone
      (doc.selectOne "#productTitle, h1, .prd-title, .pdp-title"))
      "Unknown") : Option String) = some "Unknown"
    unfold pyOrStr
    rw [ht]
    simp

theorem c7_fallback_cascade_witness :
    parse_for_domain (netloc "https://example.com/item/42") emptyDoc
      "https://example.com/item/42" = none ∧
    (parse_product emptyDoc "https://example.com/item/42").name =
      some "Unknown" ∧
    (parse_product emptyDoc "https://example.com/item/42").offers =
      some none ∧
    (parse_product emptyDoc "https://example.com/item/42").reviews = [] := by
  have h := c7_fallback_cascade emptyDoc "https://example.com/item/42"
    rfl (by decide)
  refine ⟨h.1, ?_, ?_, ?_⟩ <;> rw [h.2.1] <;> rfl

theorem all_takeWhile (p : Char → Bool) (l : List Char) :
    (l.takeWhile p).all p = true := by
  induction l with
  | nil => rfl
  | cons a as ih =>
    rw [List.takeWhile_cons]
    by_cases hp : p a = true
    · rw [if_pos hp]; simp [hp, ih]
    · rw [if_neg hp]; rfl

theorem takeWhile_eq_self_of_all (p : Char → Bool) (l : List Char)
    (h : l.all p = true) : l.takeWhile p = l := by
  induction l with
  | nil => rfl
  | cons a as ih =>
    simp only [List.all_cons, Bool.and_eq_true] at h
    rw [List.takeWhile_cons, if_pos h.1, ih h.2]

theorem takeWhile_append_all (p : Char → Bool) (l₁ l₂ : List Char)
    (h : l₁.all p = true) :
    (l₁ ++ l₂).takeWhile p = l₁ ++ l₂.takeWhile p := by
  induction l₁ with
  | nil => rfl
  | cons a as ih =>
    simp only [List.all_cons, Bool.and_eq_true] at h
    rw [List.cons_append, List.takeWhile_cons, if_pos h.1, ih h.2]
    rfl

theorem dropWhile_append_all (p : Char → Bool) (l₁ l₂ : List Char)
    (h : l₁.all p = true) :
    (l₁ ++ l₂).dropWhile p = l₂.dropWhile p := by
  induction l₁ with
  | nil => rfl
  | cons a as ih =>
    simp only [List.all_cons, Bool.and_eq_true] at h
    rw [List.cons_append, List.dropWhile_cons, if_pos h.1, ih h.2]

/-- Shape of a group captured by the numeric core `[\d,]+(?:\.\d+)?` . -/
def NumTokShape (tok : List Char) : Prop :=
  ∃ run opt, tok = run ++ opt ∧ run ≠ [] ∧ run.all isDigitComma = true ∧
    (opt = [] ∨ ∃ ds, opt = '.' :: ds ∧ ds ≠ [] ∧ ds.all isDigitChar = true)

theorem matchNumCore_shape (l tok rest : List Char)
    (h : matchNumCore l = some (tok, rest)) : NumTokShape tok := by
  unfold matchNumCore at h
  by_cases he : (l.takeWhile isDigitComma).isEmpty = true
  · rw [if_pos he] at h; exact absurd h (by simp)
  · rw [if_neg he] at h
    have hrun : (l.takeWhile isDigitComma).all isDigitComma = true :=
      all_takeWhile _ _
    have hne : l.takeWhile isDigitComma ≠ [] := by
      intro hx; rw [hx] at he; simp at he
    split at h
    · rename_i r2 heq
      by_cases hd : (r2.takeWhile isDigitChar).isEmpty = true
      · rw [if_pos hd] at h
        simp only [Option.some.injEq, Prod.mk.injEq] at h
        exact ⟨_, [], by simp [← h.1], hne, hrun, Or.inl rfl⟩
      · rw [if_neg hd] at h
        simp only [Option.some.injEq, Prod.mk.injEq] at h
        refine ⟨_, '.' :: r2.takeWhile isDigitChar, h.1.symm, hne, hrun,
          Or.inr ⟨_, rfl, ?_, all_takeWhile _ _⟩⟩
        intro hx; rw [hx] at hd; simp at hd
    · simp only [Option.some.injEq, Prod.mk.injEq] at h
      exact ⟨_, [], by simp [← h.1], hne, hrun, Or.inl rfl⟩

theorem digitComma_not_ws (c : Char) (h : isDigitComma c = true) :
    pyIsWs c = false := by
  by_contra hws
  rw [Bool.not_eq_false] at hws
  unfold pyIsWs at hws
  simp only [Bool.or_eq_true, decide_eq_true_eq] at hws
  rcases hws with ((((((hc | hc) | hc) | hc) | hc) | hc) | hc) <;>
    · subst hc; revert h; decide

theorem digitComma_ne (c : Char) (h : isDigitComma c = true) (x : Char)
    (hx : isDigitComma x = false) : c ≠ x := by
  intro hcx; rw [hcx] at h; rw [h] at hx; cases hx

theorem numTok_chars (tok : List Char) (h : NumTokShape tok) :
    ∀ c ∈ tok, isDigitComma c = true ∨ c = '.' := by
  obtain ⟨run, opt, heq, _, hall, hopt⟩ := h
  intro c hc
  rw [heq] at hc
  rcases List.mem_append.1 hc with hm | hm
  · exact Or.inl ((List.all_eq_true.1 hall) c hm)
  · rcases hopt with rfl | ⟨ds, rfl, _, hds⟩
    · simp at hm
    · rcases List.mem_cons.1 hm with rfl | hm2
      · exact Or.inr rfl
      · exact Or.inl (by
          have := (List.all_eq_true.1 hds) c hm2
          unfold isDigitComma
          simp [this])

theorem numTok_not_ws (tok : List Char) (h : NumTokShape tok) :
    ∀ c ∈ tok, pyIsWs c = false := by
  intro c hc
  rcases numTok_chars tok h c hc with h2 | h2
  · exact digitComma_not_ws c h2
  · rw [h2]; decide

theorem numTok_ne_space (tok : List Char) (h : NumTokShape tok) :
    ∀ c ∈ tok, (c ≠ ' ') := by
  intro c hc hsp
  have := numTok_not_ws tok h c hc
  rw [hsp] at this
  revert this
  decide

theorem numTok_head_not_ws (tok : List Char) (h : NumTokShape tok) :
    ∃ c cs, tok = c :: cs ∧ isDigitComma c = true := by
  obtain ⟨run, opt, heq, hne, hall, _⟩ := h
  cases hr : run with
  | nil => exact absurd hr hne
  | cons a as =>
    refine ⟨a, as ++ opt, by rw [heq, hr]; rfl, ?_⟩
    rw [hr] at hall
    simp only [List.all_cons, Bool.and_eq_true] at hall
    exact hall.1

theorem mem_of_getLast?_char (l : List Char) (c : Char)
    (h : l.getLast? = some c) : c ∈ l := by
  induction l with
  | nil => simp at h
  | cons a as ih =>
    cases as with
    | nil =>
      simp only [List.getLast?_singleton, Option.some.injEq] at h
      simp [h]
    | cons b bs =>
      rw [List.getLast?_cons_cons] at h
      exact List.mem_cons_of_mem _ (ih h)

theorem numTok_last (tok : List Char) (h : NumTokShape tok) :
    ∀ c, tok.getLast? = some c → pyIsWs c = false := by
  intro c hc
  exact numTok_not_ws tok h c (mem_of_getLast?_char tok c hc)

/-- The numeric core consumes a well-shaped token entirely. -/
theorem matchNumCore_full (tok : List Char) (h : NumTokShape tok) :
    matchNumCore tok = some (tok, []) := by
  obtain ⟨run, opt, rfl, hne, hall, hopt⟩ := h
  rcases hopt with rfl | ⟨ds, rfl, hdsne, hds⟩
  · unfold matchNumCore
    rw [List.append_nil, takeWhile_eq_self_of_all _ _ hall,
      dropWhile_eq_nil_of_all _ _ hall]
    rw [if_neg (by simp [hne])]
  · unfold matchNumCore
    rw [takeWhile_append_all _ _ _ hall, dropWhile_append_all _ _ _ hall]
    have ht : ('.' :: ds).takeWhile isDigitComma = [] := by
      rw [List.takeWhile_cons, if_neg (by decide)]
    have hd : ('.' :: ds).dropWhile isDigitComma = '.' :: ds := by
      rw [List.dropWhile_cons, if_neg (by decide)]
    rw [ht, hd, List.append_nil]
    rw [if_neg (by simp [hne])]
    show (if (ds.takeWhile isDigitChar).isEmpty then some (run, '.' :: ds)
          else some (run ++ '.' :: ds.takeWhile isDigitChar,
            ds.dropWhile isDigitChar)) = some (run ++ '.' :: ds, [])
    rw [takeWhile_eq_self_of_all _ _ hds, dropWhile_eq_nil_of_all _ _ hds,
      if_neg (by simp [hdsne])]

theorem rupeeMatchAt_shape (l m rest : List Char)
    (hm : rupeeMatchAt l = some (m, rest)) :
    ∃ ws tok, m = '₹' :: (ws ++ tok) ∧ ws.all pyIsWs = true ∧
      NumTokShape tok := by
  unfold rupeeMatchAt at hm
  split at hm
  · rename_i t
    cases hmc : matchNumCore (t.dropWhile pyIsWs) with
    | none => rw [hmc] at hm; exact absurd hm (by simp)
    | some pr =>
      rw [hmc] at hm
      obtain ⟨tok, r⟩ := pr
      simp only [Option.some.injEq, Prod.mk.injEq] at hm
      exact ⟨t.takeWhile pyIsWs, tok, hm.1.symm, all_takeWhile _ _,
        matchNumCore_shape _ _ _ hmc⟩
  all_goals exact absurd hm (by simp)

theorem rsCore_shape (c1 c2 : Char) (dot t1 m rest : List Char)
    (hm : rsCore c1 c2 dot t1 = some (m, rest)) :
    ∃ ws tok, m = c1 :: c2 :: (dot ++ ws ++ tok) ∧ ws.all pyIsWs = true ∧
      NumTokShape tok := by
  unfold rsCore at hm
  cases hmc : matchNumCore (t1.dropWhile pyIsWs) with
  | none => rw [hmc] at hm; exact absurd hm (by simp)
  | some pr =>
    rw [hmc] at hm
    obtain ⟨tok, r⟩ := pr
    simp only [Option.some.injEq, Prod.mk.injEq] at hm
    refine ⟨t1.takeWhile pyIsWs, tok, ?_, all_takeWhile _ _,
      matchNumCore_shape _ _ _ hmc⟩
    rw [← hm.1]

theorem rsTail_shape (c1 c2 : Char) (t m rest : List Char)
    (hm : rsTail c1 c2 t = some (m, rest)) :
    ∃ dot ws tok, m = c1 :: c2 :: (dot ++ ws ++ tok) ∧
      (dot = [] ∨ dot = ['.']) ∧ ws.all pyIsWs = true ∧ NumTokShape tok := by
  unfold rsTail at hm
  split at hm
  · obtain ⟨ws, tok, h1, h2, h3⟩ := rsCore_shape _ _ _ _ _ _ hm
    exact ⟨['.'], ws, tok, h1, Or.inr rfl, h2, h3⟩
  · obtain ⟨ws, tok, h1, h2, h3⟩ := rsCore_shape _ _ _ _ _ _ hm
    exact ⟨[], ws, tok, h1, Or.inl rfl, h2, h3⟩

theorem rsMatchAt_shape (l m rest : List Char)
    (hm : rsMatchAt l = some (m, rest)) :
    ∃ c1 c2 dot ws tok, m = c1 :: c2 :: (dot ++ ws ++ tok) ∧
      (c1 = 'R' ∨ c1 = 'r') ∧ (c2 = 's' ∨ c2 = 'S') ∧
      (dot = [] ∨ dot = ['.']) ∧ ws.all pyIsWs = true ∧ NumTokShape tok := by
  unfold rsMatchAt at hm
  split at hm
  · rename_i c1 c2 t
    by_cases hrs : ((c1 = 'R' || c1 = 'r') && (c2 = 's' || c2 = 'S')) = true
    · rw [if_pos hrs] at hm
      obtain ⟨dot, ws, tok, h1, h2, h3, h4⟩ := rsTail_shape _ _ _ _ _ hm
      simp only [Bool.and_eq_true, Bool.or_eq_true, decide_eq_true_eq] at hrs
      exact ⟨c1, c2, dot, ws, tok, h1, hrs.1, hrs.2, h2, h3, h4⟩
    · rw [if_neg hrs] at hm
      exact absurd hm (by simp)
  · exact absurd hm (by simp)

theorem scanFor_exists (f : List Char → Option (List Char × List Char))
    (l m : List Char) (h : scanFor f l = some m) :
    ∃ l' rest, f l' = some (m, rest) := by
  induction l with
  | nil => simp [scanFor] at h
  | cons a as ih =>
    unfold scanFor at h
    cases hf : f (a :: as) with
    | some pr =>
      rw [hf] at h
      obtain ⟨m', r'⟩ := pr
      simp only [Option.some.injEq] at h
      exact ⟨a :: as, r', by rw [hf, h]⟩
    | none =>
      rw [hf] at h
      exact ih h

theorem dropWhile_eq_self_head (p : Char → Bool) (l : List Char)
    (h : ∀ c, l.head? = some c → p c = false) : l.dropWhile p = l := by
  cases l with
  | nil => rfl
  | cons a as => rw [List.dropWhile_cons, if_neg (by simp [h a rfl])]

theorem pyStrip_id (l : List Char)
    (h1 : ∀ c, l.head? = some c → pyIsWs c = false)
    (h2 : ∀ c, l.getLast? = some c → pyIsWs c = false) : pyStrip l = l := by
  unfold pyStrip
  rw [dropWhile_eq_self_head _ _ h1,
    dropWhile_eq_self_head _ _ (fun c hc =>
      h2 c (by rw [← List.head?_reverse]; exact hc)),
    List.reverse_reverse]

theorem isPrefixOf_mem (pat l : List Char) (hp : pat.isPrefixOf l = true) :
    ∀ c ∈ pat, c ∈ l := by
  induction pat generalizing l with
  | nil => intro c hc; simp at hc
  | cons a as ih =>
    cases l with
    | nil => simp [List.isPrefixOf] at hp
    | cons b bs =>
      simp only [List.isPrefixOf, Bool.and_eq_true, beq_iff_eq] at hp
      intro c hc
      rcases List.mem_cons.1 hc with rfl | hc2
      · rw [hp.1]; exact List.mem_cons_self _ _
      · exact List.mem_cons_of_mem _ (ih bs hp.2 c hc2)

theorem pyReplaceAux_id (pat repl : List Char) (x : Char) (hx : x ∈ pat) :
    ∀ (fuel : Nat) (l : List Char), x ∉ l →
      pyReplaceAux pat repl fuel l = l := by
  intro fuel
  induction fuel with
  | zero => intro l _; cases l <;> rfl
  | succ n ih =>
    intro l hnl
    cases l with
    | nil => rfl
    | cons a as =>
      unfold pyReplaceAux
      by_cases hp : pat.isPrefixOf (a :: as) = true
      · exact absurd (isPrefixOf_mem pat _ hp x hx) hnl
      · rw [if_neg hp, ih as (fun hmem => hnl (List.mem_cons_of_mem _ hmem))]

theorem pyReplace_id (l pat repl : List Char) (x : Char) (hx : x ∈ pat)
    (hnl : x ∉ l) : pyReplace l pat repl = l :=
  pyReplaceAux_id pat repl x hx l.length l hnl

theorem getLast?_append_right (l₁ l₂ : List Char) (h : l₂ ≠ []) :
    (l₁ ++ l₂).getLast? = l₂.getLast? := by
  induction l₁ with
  | nil => rfl
  | cons a as ih =>
    rw [List.cons_append]
    cases hq : as ++ l₂ with
    | nil =>
      rcases List.append_eq_nil.1 hq with ⟨_, h2⟩
      exact absurd h2 h
    | cons b bs =>
      rw [List.getLast?_cons_cons, ← hq, ih]

/-- `cleanL` leaves a string untouched when it neither starts nor ends
with whitespace and contains none of the letters `a`, `F`, `w` (each of
the three qualifier phrases contains one of them). -/
theorem cleanL_id (l : List Char)
    (hh : ∀ c, l.head? = some c → pyIsWs c = false)
    (hl : ∀ c, l.getLast? = some c → pyIsWs c = false)
    (ha : 'a' ∉ l) (hF : 'F' ∉ l) (hw : 'w' ∉ l) : cleanL l = l := by
  unfold cleanL
  rw [pyStrip_id l hh hl,
    pyReplace_id l _ [] 'a' (by decide) ha,
    pyReplace_id l _ [] 'F' (by decide) hF,
    pyReplace_id l _ [] 'w' (by decide) hw,
    pyStrip_id l hh hl]

/-- Character discipline of a normalizer output: whitespace, digits and
commas, or one of a (small) fixed set. -/
def OutChars (extra : List Char) (out : List Char) : Prop :=
  ∀ c ∈ out, pyIsWs c = true ∨ isDigitComma c = true ∨ c ∈ extra

theorem outChars_not_mem (extra out : List Char) (h : OutChars extra out)
    (x : Char) (hws : pyIsWs x = false) (hdc : isDigitComma x = false)
    (hex : x ∉ extra) : x ∉ out := by
  intro hm
  rcases h x hm with h1 | h1 | h1
  · rw [h1] at hws; cases hws
  · rw [h1] at hdc; cases hdc
  · exact hex h1

theorem scanFor_rupee_none_of_no_rupee (l : List Char) (h : '₹' ∉ l) :
    scanFor rupeeMatchAt l = none := by
  induction l with
  | nil => rfl
  | cons a as ih =>
    unfold scanFor
    have hne : rupeeMatchAt (a :: as) = none := by
      unfold rupeeMatchAt
      split
      · rename_i t heq
        injection heq with h1 _
        exact absurd (h1 ▸ List.mem_cons_self _ _ : '₹' ∈ a :: as) h
      · rfl
    rw [hne]
    exact ih (fun hm => h (List.mem_cons_of_mem _ hm))

theorem filter_space_eq_self (l : List Char) (h : ∀ c ∈ l, c ≠ ' ') :
    l.filter (fun c => c ≠ ' ') = l := by
  induction l with
  | nil => rfl
  | cons a as ih =>
    rw [List.filter_cons, if_pos (by simp [h a (List.mem_cons_self _ _)])]
    rw [ih (fun c hc => h c (List.mem_cons_of_mem _ hc))]

theorem mem_filter_space (l : List Char) :
    ∀ c ∈ l.filter (fun c => c ≠ ' '), c ∈ l ∧ c ≠ ' ' := by
  intro c hc
  have := List.mem_filter.1 hc
  exact ⟨this.1, by simpa using this.2⟩

/-- Does the cleaned input contain a currency amount the normalizer will
accept: an explicit `₹` amount, an `Rs`/`INR` amount, or a bare number
with at least two digits?  (The spec's "well-formed input containing a
single currency amount" falls in here.) -/
def hasCurrencyAmountB (s : String) : Bool :=
  (scanFor rupeeMatchAt (cleanL s.data)).isSome ||
  (scanFor rsMatchAt (cleanL s.data)).isSome ||
  !firstNumMatchSmall (cleanL s.data)

theorem ws_then_tok (ws tok : List Char) (hws : ws.all pyIsWs = true)
    (htok : NumTokShape tok) :
    (ws ++ tok).takeWhile pyIsWs = ws ∧
    (ws ++ tok).dropWhile pyIsWs = tok := by
  obtain ⟨c, cs, heq, hc⟩ := numTok_head_not_ws tok htok
  constructor
  · rw [takeWhile_append_all _ _ _ hws, heq, List.takeWhile_cons,
      if_neg (by simp [digitComma_not_ws c hc]), List.append_nil]
  · rw [dropWhile_append_all _ _ _ hws, heq, List.dropWhile_cons,
      if_neg (by simp [digitComma_not_ws c hc])]

theorem numTok_ne_nil (tok : List Char) (htok : NumTokShape tok) :
    tok ≠ [] := by
  obtain ⟨c, cs, heq, _⟩ := numTok_head_not_ws tok htok
  rw [heq]
  simp

/-- A space-free `₹`‑amount (`₹` + non-space whitespace + numeric token)
is a fixed point of `normalize_price_str`. -/
theorem rupee_canonical_stable (ws' tok : List Char)
    (hwsa : ws'.all pyIsWs = true) (hwssp : ∀ c ∈ ws', c ≠ ' ')
    (htok : NumTokShape tok) :
    normalize_price_str (some (String.mk ('₹' :: (ws' ++ tok)))) =
      some (String.mk ('₹' :: (ws' ++ tok))) := by
  have hLdata : (String.mk ('₹' :: (ws' ++ tok))).data = '₹' :: (ws' ++ tok) :=
    rfl
  have hchars : OutChars ['₹', '.'] ('₹' :: (ws' ++ tok)) := by
    intro c hc
    rcases List.mem_cons.1 hc with rfl | hc2
    · exact Or.inr (Or.inr (by simp))
    rcases List.mem_append.1 hc2 with hc3 | hc3
    · exact Or.inl ((List.all_eq_true.1 hwsa) c hc3)
    · rcases numTok_chars tok htok c hc3 with h2 | h2
      · exact Or.inr (Or.inl h2)
      · exact Or.inr (Or.inr (by simp [h2]))
  have hhead : ∀ c, ('₹' :: (ws' ++ tok)).head? = some c →
      pyIsWs c = false := by
    intro c hc
    simp only [List.head?_cons, Option.some.injEq] at hc
    rw [← hc]
    decide
  have hlast : ∀ c, ('₹' :: (ws' ++ tok)).getLast? = some c →
      pyIsWs c = false := by
    intro c hc
    have hrw : ('₹' :: (ws' ++ tok)).getLast? = tok.getLast? := by
      rw [show '₹' :: (ws' ++ tok) = ('₹' :: ws') ++ tok by simp,
        getLast?_append_right _ _ (numTok_ne_nil tok htok)]
    rw [hrw] at hc
    exact numTok_last tok htok c hc
  have hclean : cleanL ('₹' :: (ws' ++ tok)) = '₹' :: (ws' ++ tok) :=
    cleanL_id _ hhead hlast
      (outChars_not_mem _ _ hchars 'a' (by decide) (by decide) (by decide))
      (outChars_not_mem _ _ hchars 'F' (by decide) (by decide) (by decide))
      (outChars_not_mem _ _ hchars 'w' (by decide) (by decide) (by decide))
  obtain ⟨htake, hdrop⟩ := ws_then_tok ws' tok hwsa htok
  have hmatch : rupeeMatchAt ('₹' :: (ws' ++ tok)) =
      some ('₹' :: (ws' ++ tok), []) := by
    show (match matchNumCore ((ws' ++ tok).dropWhile pyIsWs) with
          | some (tok', rest) =>
            some ('₹' :: ((ws' ++ tok).takeWhile pyIsWs ++ tok'), rest)
          | none => none) = some ('₹' :: (ws' ++ tok), [])
    rw [hdrop, matchNumCore_full tok htok, htake]
  have hscan : scanFor rupeeMatchAt ('₹' :: (ws' ++ tok)) =
      some ('₹' :: (ws' ++ tok)) := by
    unfold scanFor
    rw [hmatch]
  have hLsp : ∀ c ∈ '₹' :: (ws' ++ tok), c ≠ ' ' := by
    intro c hc
    rcases List.mem_cons.1 hc with rfl | hc2
    · decide
    rcases List.mem_append.1 hc2 with hc3 | hc3
    · exact hwssp c hc3
    · exact numTok_ne_space tok htok c hc3
  rw [normalize_rupee_branch (String.mk ('₹' :: (ws' ++ tok)))
    ('₹' :: (ws' ++ tok)) (by rw [hLdata]; rfl) (by rw [hLdata, hclean]; exact hscan)]
  rw [filter_space_eq_self _ hLsp]

theorem num_canonical_stable (tok : List Char) (htok : NumTokShape tok) :
    normalize_price_str (some (String.mk ('₹' :: tok))) =
      some (String.mk ('₹' :: tok)) := by
  have h := rupee_canonical_stable [] tok (by rfl)
    (by intro c hc; simp at hc) htok
  simpa using h

theorem rsCore_full (c1 c2 : Char) (dot ws' tok : List Char)
    (hwsa : ws'.all pyIsWs = true) (htok : NumTokShape tok) :
    rsCore c1 c2 dot (ws' ++ tok) =
      some (c1 :: c2 :: (dot ++ ws' ++ tok), []) := by
  obtain ⟨htake, hdrop⟩ := ws_then_tok ws' tok hwsa htok
  show (match matchNumCore ((ws' ++ tok).dropWhile pyIsWs) with
        | some (tok', rest) =>
          some (c1 :: c2 :: (dot ++ (ws' ++ tok).takeWhile pyIsWs ++ tok'), rest)
        | none => none) = some (c1 :: c2 :: (dot ++ ws' ++ tok), [])
  rw [hdrop, matchNumCore_full tok htok, htake]

theorem rsTail_full (c1 c2 : Char) (dot ws' tok : List Char)
    (hdot : dot = [] ∨ dot = ['.'])
    (hwsa : ws'.all pyIsWs = true) (htok : NumTokShape tok) :
    rsTail c1 c2 (dot ++ ws' ++ tok) =
      some (c1 :: c2 :: (dot ++ ws' ++ tok), []) := by
  rcases hdot with rfl | rfl
  · -- no dot: the head of `ws' ++ tok` is never '.'
    simp only [List.nil_append]
    have hne : ws' ++ tok ≠ [] := by
      intro hq
      rcases List.append_eq_nil.1 hq with ⟨_, h2⟩
      exact absurd h2 (numTok_ne_nil tok htok)
    cases hq : ws' ++ tok with
    | nil => exact absurd hq hne
    | cons b bs =>
      have hbdot : b ≠ '.' := by
        cases hw : ws' with
        | nil =>
          obtain ⟨c, cs, heqt, hc⟩ := numTok_head_not_ws tok htok
          rw [hw, List.nil_append, heqt] at hq
          injection hq with h1 _
          rw [← h1]
          exact digitComma_ne _ hc _ (by decide)
        | cons w wr =>
          rw [hw, List.cons_append] at hq
          injection hq with h1 _
          have hwmem : pyIsWs w = true := by
            rw [hw] at hwsa
            simp only [List.all_cons, Bool.and_eq_true] at hwsa
            exact hwsa.1
          rw [← h1]
          intro hcontra
          rw [hcontra] at hwmem
          revert hwmem
          decide
      unfold rsTail
      split
      · rename_i r heq
        injection heq with h1 _
        exact absurd h1 hbdot
      · rw [← hq]
        have h := rsCore_full c1 c2 [] ws' tok hwsa htok
        simpa using h
  · -- with the dot consumed
    show rsTail c1 c2 ('.' :: (ws' ++ tok)) =
      some (c1 :: c2 :: (['.'] ++ ws' ++ tok), [])
    unfold rsTail
    exact rsCore_full c1 c2 ['.'] ws' tok hwsa htok

/-- A space-free `Rs`‑amount is a fixed point of `normalize_price_str`. -/
theorem rs_canonical_stable (c1 c2 : Char) (dot ws' tok : List Char)
    (h1c : c1 = 'R' ∨ c1 = 'r') (h2c : c2 = 's' ∨ c2 = 'S')
    (hdot : dot = [] ∨ dot = ['.'])
    (hwsa : ws'.all pyIsWs = true) (hwssp : ∀ c ∈ ws', c ≠ ' ')
    (htok : NumTokShape tok) :
    normalize_price_str (some (String.mk (c1 :: c2 :: (dot ++ ws' ++ tok)))) =
      some (String.mk (c1 :: c2 :: (dot ++ ws' ++ tok))) := by
  have hLdata : (String.mk (c1 :: c2 :: (dot ++ ws' ++ tok))).data =
      c1 :: c2 :: (dot ++ ws' ++ tok) := rfl
  have hchars : OutChars ['.', 'R', 'r', 's', 'S']
      (c1 :: c2 :: (dot ++ ws' ++ tok)) := by
    intro c hc
    rcases List.mem_cons.1 hc with rfl | hc2
    · rcases h1c with rfl | rfl <;> · right; right; decide
    rcases List.mem_cons.1 hc2 with rfl | hc3
    · rcases h2c with rfl | rfl <;> · right; right; decide
    rcases List.mem_append.1 hc3 with hc4 | hc4
    · rcases List.mem_append.1 hc4 with hc5 | hc5
      · rcases hdot with rfl | rfl
        · simp at hc5
        · rcases List.mem_singleton.1 hc5 with rfl
          right; right; decide
      · exact Or.inl ((List.all_eq_true.1 hwsa) c hc5)
    · rcases numTok_chars tok htok c hc4 with h2 | h2
      · exact Or.inr (Or.inl h2)
      · exact Or.inr (Or.inr (by simp [h2]))
  have hhead : ∀ c, (c1 :: c2 :: (dot ++ ws' ++ tok)).head? = some c →
      pyIsWs c = false := by
    intro c hc
    simp only [List.head?_cons, Option.some.injEq] at hc
    rw [← hc]
    rcases h1c with rfl | rfl <;> decide
  have hlast : ∀ c, (c1 :: c2 :: (dot ++ ws' ++ tok)).getLast? = some c →
      pyIsWs c = false := by
    intro c hc
    have hrw : (c1 :: c2 :: (dot ++ ws' ++ tok)).getLast? = tok.getLast? := by
      rw [show c1 :: c2 :: (dot ++ ws' ++ tok) =
        (c1 :: c2 :: (dot ++ ws')) ++ tok by simp,
        getLast?_append_right _ _ (numTok_ne_nil tok htok)]
    rw [hrw] at hc
    exact numTok_last tok htok c hc
  have hclean : cleanL (c1 :: c2 :: (dot ++ ws' ++ tok)) =
      c1 :: c2 :: (dot ++ ws' ++ tok) :=
    cleanL_id _ hhead hlast
      (outChars_not_mem _ _ hchars 'a' (by decide) (by decide) (by decide))
      (outChars_not_mem _ _ hchars 'F' (by decide) (by decide) (by decide))
      (outChars_not_mem _ _ hchars 'w' (by decide) (by decide) (by decide))
  have hnorupee : scanFor rupeeMatchAt (c1 :: c2 :: (dot ++ ws' ++ tok)) =
      none :=
    scanFor_rupee_none_of_no_rupee _
      (outChars_not_mem _ _ hchars '₹' (by decide) (by decide) (by decide))
  have hmatch : rsMatchAt (c1 :: c2 :: (dot ++ ws' ++ tok)) =
      some (c1 :: c2 :: (dot ++ ws' ++ tok), []) := by
    show (if (c1 = 'R' || c1 = 'r') && (c2 = 's' || c2 = 'S') then
          rsTail c1 c2 (dot ++ ws' ++ tok) else none) =
      some (c1 :: c2 :: (dot ++ ws' ++ tok), [])
    rw [if_pos (by
      rcases h1c with rfl | rfl <;> rcases h2c with rfl | rfl <;> decide)]
    exact rsTail_full c1 c2 dot ws' tok hdot hwsa htok
  have hscan : scanFor rsMatchAt (c1 :: c2 :: (dot ++ ws' ++ tok)) =
      some (c1 :: c2 :: (dot ++ ws' ++ tok)) := by
    unfold scanFor
    rw [hmatch]
  have hLsp : ∀ c ∈ c1 :: c2 :: (dot ++ ws' ++ tok), c ≠ ' ' := by
    intro c hc
    rcases List.mem_cons.1 hc with rfl | hc2
    · rcases h1c with rfl | rfl <;> decide
    rcases List.mem_cons.1 hc2 with rfl | hc3
    · rcases h2c with rfl | rfl <;> decide
    rcases List.mem_append.1 hc3 with hc4 | hc4
    · rcases List.mem_append.1 hc4 with hc5 | hc5
      · rcases hdot with rfl | rfl
        · simp at hc5
        · rcases List.mem_singleton.1 hc5 with rfl; decide
      · exact hwssp c hc5
    · exact numTok_ne_space tok htok c hc4
  rw [normalize_rs_branch (String.mk (c1 :: c2 :: (dot ++ ws' ++ tok)))
    (c1 :: c2 :: (dot ++ ws' ++ tok)) (by rw [hLdata]; rfl)
    (by rw [hLdata, hclean]; exact hnorupee)
    (by rw [hLdata, hclean]; exact hscan)]
  rw [filter_space_eq_self _ hLsp]

/-- C6: price normalization is idempotent on inputs with a currency
amount.  If the cleaned input contains a `₹`‑amount, an `Rs`/`INR` amount
or an acceptable (≥ 2-digit) bare number — in particular every well-formed
input containing a single currency amount — and the normalizer maps `s`
to `t`, then it maps `t` to `t`. -/
theorem c6_normalize_idempotent (s t : String)
    (hcur : hasCurrencyAmountB s = true)
    (h : normalize_price_str (some s) = some t) :
    normalize_price_str (some t) = some t := by
  by_cases hse : s.data.isEmpty = true
  · rw [normalize_price_str_some_eq, if_pos hse] at h
    exact absurd h (by simp)
  have hse' : s.data.isEmpty = false := by
    revert hse
    cases s.data.isEmpty <;> simp
  cases hr : scanFor rupeeMatchAt (cleanL s.data) with
  | some m =>
    rw [normalize_rupee_branch s m hse' hr] at h
    obtain ⟨l', rest, hma⟩ := scanFor_exists _ _ _ hr
    obtain ⟨ws, tok, hmeq, hws, htok⟩ := rupeeMatchAt_shape _ _ _ hma
    have ht : t = String.mk (m.filter (fun c => c ≠ ' ')) := by
      injection h with h'
      exact h'.symm
    subst ht
    rw [hmeq]
    have hfe : ('₹' :: (ws ++ tok)).filter (fun c => c ≠ ' ') =
        '₹' :: (ws.filter (fun c => c ≠ ' ') ++ tok) := by
      rw [List.filter_cons, if_pos (by decide), List.filter_append,
        filter_space_eq_self tok (numTok_ne_space tok htok)]
    rw [hfe]
    exact rupee_canonical_stable _ tok
      (by
        rw [List.all_eq_true]
        intro c hc
        exact (List.all_eq_true.1 hws) c (List.mem_filter.1 hc).1)
      (fun c hc => by
        have := (List.mem_filter.1 hc).2
        simpa using this)
      htok
  | none =>
    cases hrs : scanFor rsMatchAt (cleanL s.data) with
    | some m =>
      rw [normalize_rs_branch s m hse' hr hrs] at h
      obtain ⟨l', rest, hma⟩ := scanFor_exists _ _ _ hrs
      obtain ⟨c1, c2, dot, ws, tok, hmeq, h1c, h2c, hdot, hws, htok⟩ :=
        rsMatchAt_shape _ _ _ hma
      have ht : t = String.mk (m.filter (fun c => c ≠ ' ')) := by
        injection h with h'
        exact h'.symm
      subst ht
      rw [hmeq]
      have hfe : (c1 :: c2 :: (dot ++ ws ++ tok)).filter (fun c => c ≠ ' ') =
          c1 :: c2 :: (dot ++ ws.filter (fun c => c ≠ ' ') ++ tok) := by
        rw [List.filter_cons, if_pos (by rcases h1c with rfl | rfl <;> decide),
          List.filter_cons, if_pos (by rcases h2c with rfl | rfl <;> decide),
          List.filter_append, List.filter_append,
          show dot.filter (fun c => c ≠ ' ') = dot from
            (by rcases hdot with rfl | rfl <;> decide),
          filter_space_eq_self tok (numTok_ne_space tok htok)]
      rw [hfe]
      exact rs_canonical_stable c1 c2 dot _ tok h1c h2c hdot
        (by
          rw [List.all_eq_true]
          intro c hc
          exact (List.all_eq_true.1 hws) c (List.mem_filter.1 hc).1)
        (fun c hc => by
          have := (List.mem_filter.1 hc).2
          simpa using this)
        htok
    | none =>
      cases hn : scanFor numMatchAt (cleanL s.data) with
      | some m =>
        have hd2 : 2 ≤ (m.filter isDigitChar).length := by
          unfold hasCurrencyAmountB at hcur
          rw [hr, hrs] at hcur
          unfold firstNumMatchSmall at hcur
          rw [hn] at hcur
          simp at hcur
          omega
        rw [normalize_num_branch s m hse' hr hrs hn hd2] at h
        have ht : t = String.mk ('₹' :: m) := by
          injection h with h'
          exact h'.symm
        subst ht
        obtain ⟨l', rest, hma⟩ := scanFor_exists _ _ _ hn
        have htok : NumTokShape m := by
          unfold numMatchAt at hma
          split at hma
          · rename_i c tl
            by_cases hc : isDigitChar c = true
            · rw [if_pos hc] at hma
              exact matchNumCore_shape _ _ _ hma
            · rw [if_neg hc] at hma
              exact absurd hma (by simp)
          · exact absurd hma (by simp)
        exact num_canonical_stable m htok
      | none =>
        exfalso
        unfold hasCurrencyAmountB at hcur
        rw [hr, hrs] at hcur
        unfold firstNumMatchSmall at hcur
        rw [hn] at hcur
        simp at hcur

theorem c6_normalize_idempotent_witness :
    normalize_price_str (some "₹2,499") = some "₹2,499" := by
  have h := c6_normalize_idempotent "MRP ₹ 2,499" "₹2,499"
    (by decide) (by decide)
  exact h

end PRA
